import Mathlib

/-!
# Density Matrix Truncation: a shallow embedding of `density_matrix.h`

The development embeds the parts of `src/density_matrix.h` that the
specification makes claims about:

* `reduceDimTop` (lines 10-37),
* the Taylor recurrence of `VecMPOBondGate` (lines 85-123),
* the guards and the frontier update of `DMTDensityMatrix::svdBond`
  (lines 271-283 and 480-489),
* the rotate / subtract / copy-out / truncate / write-back / add-back / un-rotate
  pipeline of the truncation branch of `svdBond` (lines 356-427),
* `DMTDensityMatrix::vec` and `DMTDensityMatrix::unvec` (lines 493-523).

Conventions.  C++ `int`/`long` values are mathematical integers (`Int`); the
quantities concerned are site numbers and index dimensions of a chain held in
memory, and signed overflow has no defined behaviour in C++.  Tensor entries
live in an arbitrary field `K` with an involution `star` (complex conjugation),
so the arithmetic is exact; the one operation of the embedded code that has no
value in a field, the division by `eltC(D,1,1)` on line 357 when that entry is
zero, is embedded a second time on machine values (a number, an infinity or a
NaN), see `svdBondResidualMachine`.  `Error(...)` throws: a function
that can reach one returns `Except DMTError _`.  Calls into the tensor library
whose result is not determined by this repository (`svd`, `denmatDecomp`, `qr`)
are parameters of the embedded functions.
-/

namespace DMT

/-! ## Errors -/

/-- The fatal errors of `density_matrix.h`, one constructor per `Error(...)` call site,
and `library` for an exception raised inside the tensor library. -/
inductive DMTError
  /-- `Error("reduceDimTop: Cannot reduce index size below zero")` -/
  | reduceBelowZero
  /-- `Error("When providing bondH, type must be tReal or tImag")` -/
  | gateType
  /-- `Error("b-1 > l_orth_lim_")` -/
  | leftLim
  /-- `Error("b+2 < r_orth_lim_")` -/
  | rightLim
  /-- `Error("presRange must be > 0 for DMT.")` -/
  | presRange
  /-- `Error("Cannot vectorize already vectorized MPO!")` -/
  | alreadyVectorized
  /-- `Error("Cannot unvectorize a not vectorized MPO!")` -/
  | notVectorized
  /-- An exception thrown by the tensor library itself. -/
  | library (msg : String)
  deriving DecidableEq, Repr

/-- Lifts the outcome of a tensor-library call into the error type of this file. -/
def liftLibrary {σ : Type} : Except String σ → Except DMTError σ
  | .ok s => .ok s
  | .error msg => .error (.library msg)

/-! ## Loops -/

/-- The loop `for (int k = lo; k <= hi; k++) s = body(k, s);`. -/
def forUpTo {σ : Type} (lo hi : Int) (body : Int → σ → σ) (s : σ) : σ :=
  (List.range (hi + 1 - lo).toNat).foldl (fun acc (k : Nat) => body (lo + (k : Int)) acc) s

/-- The loop `for (auto i : range1(n))`, i.e. `i = 1, ..., n`, with a body that may throw. -/
def forRange1 {σ : Type} (n : Nat) (body : Nat → σ → Except DMTError σ) (s : σ) :
    Except DMTError σ :=
  (List.range n).foldlM (fun acc k => body (k + 1) acc) s

/-! ## Indices with quantum-number blocks and `reduceDimTop` -/

/-- A link index of the tensor library as `reduceDimTop` sees it: its tags, its dimension
`ind.dim()`, and its quantum-number storage, the list of blocks `(qn(ind,i), blocksize(ind,i))`
for `i = 1, ..., nblock(ind)`.  An index without quantum numbers has an empty storage.  (The
identifier and the arrow of the index play no part in the dimensions and are left out.) -/
structure Index (Q : Type) where
  tags : String
  dim : Int
  qns : List (Q × Int)

/-- The call `hasQNs(ind)`. -/
def hasQNs {Q : Type} (ind : Index Q) : Bool := !ind.qns.isEmpty

/-- Total dimension of a quantum-number storage. -/
def totalDim {Q : Type} (qns : List (Q × Int)) : Int := (qns.map Prod.snd).sum

/-- The constructor `Index(qns, dir, tags)`: the dimension is the total of the block sizes. -/
def Index.ofQNs {Q : Type} (qns : List (Q × Int)) (tags : String) : Index Q :=
  { tags := tags, dim := totalDim qns, qns := qns }

/-- The constructor `Index(m, tags)`: no quantum numbers. -/
def Index.ofDim {Q : Type} (m : Int) (tags : String) : Index Q :=
  { tags := tags, dim := m, qns := [] }

/-- One iteration of the block loop of `reduceDimTop` (lines 23-32) on the block `blk`: the
state is `(cumulDim, qns)`. -/
def reduceDimTopStep {Q : Type} (st : Int × List (Q × Int)) (blk : Q × Int) :
    Int × List (Q × Int) :=
  let d := blk.2 - st.1
  if d > 0 then (0, st.2 ++ [(blk.1, d)])
  else (st.1 - blk.2, st.2)

/-- The function `reduceDimTop(ind, reduceDim)` (lines 10-37). -/
def reduceDimTop {Q : Type} (ind : Index Q) (reduceDim : Int) : Except DMTError (Index Q) :=
  let indTags := ind.tags
  if reduceDim > ind.dim then .error .reduceBelowZero
  else if hasQNs ind then
    let st := ind.qns.foldl reduceDimTopStep (reduceDim, [])
    .ok (Index.ofQNs st.2 indTags)
  else .ok (Index.ofDim (ind.dim - reduceDim) indTags)

/-! ## The Taylor-series gate of `VecMPOBondGate` -/

/-- The gate-type enum of the tensor library's `BondGate`. -/
inductive BondGateType
  | tReal
  | tImag
  | Swap
  | Custom
  deriving DecidableEq, Repr

/-- The loop `for(int ord = 100; ord >= 1; --ord)` of `VecMPOBondGate` (lines 115-121), started
at `ord`; the state is `(term, gate)`.  Two-site tensors are elements of an algebra `A` over the
scalars `K`: `gate * bondH` followed by `replaceTags("2","1")` is the product of `A`, and
`term /= ord` divides every entry by `ord`. -/
def taylorLoop (K : Type) {A : Type} [Field K] [Ring A] [Algebra K A] (unit bondH : A) :
    Nat → A × A → A × A
  | 0, st => st
  | ord + 1, st =>
    let term := ((ord + 1 : Nat) : K)⁻¹ • st.1
    let gate := unit + term
    let term := gate * bondH
    taylorLoop K unit bondH ord (term, gate)

/-- The function `VecMPOBondGate` (lines 85-123): the sites `(i1, i2)` and the tensor `gate`
that the returned `BondGate` wraps.  `Complex_i` is the imaginary unit of the scalars; the
default-constructed `gate` is `0`. -/
def VecMPOBondGate {K A : Type} [Field K] [Ring A] [Algebra K A] (Complex_i : K) (unit : A)
    (i1 i2 : Int) (type : BondGateType) (tau : K) (bondH : A) :
    Except DMTError (Int × Int × A) :=
  let i12 : Int × Int := if i1 > i2 then (i2, i1) else (i1, i2)
  if !(type = BondGateType.tReal || type = BondGateType.tImag) then .error .gateType
  else
    let bondH := (-tau) • bondH
    let bondH := if type = BondGateType.tReal then Complex_i • bondH else bondH
    let term := bondH
    let st := taylorLoop K unit bondH 100 (term, 0)
    .ok (i12.1, i12.2, st.2)

/-! ## Chain state -/

/-- The sweep direction enum of the tensor library. `svdBond` compares its argument with
`Fromleft` and `Fromright` only. -/
inductive Direction
  | Fromright
  | Fromleft
  | BothDir
  | None
  deriving DecidableEq, Repr

/-- A physical (site) index: tags, prime level and dimension. -/
structure SiteIndex where
  tags : String
  plev : Nat
  dim : Nat
  deriving DecidableEq, Repr, Inhabited

/-- An `IndexSet` of site indices. -/
abbrev IndexSet := List SiteIndex

/-- A combiner tensor, `combiner(inds, {"Tags", tags})`: it remembers the indices it merges and
the tags of the merged index. -/
structure Combiner where
  inds : IndexSet
  tags : String
  deriving DecidableEq, Repr, Inhabited

/-- Dimension of the merged index: the product of the merged dimensions. -/
def combinedDim : IndexSet → Nat
  | [] => 1
  | [a] => a.dim
  | a :: rest => a.dim * combinedDim rest

/-- The merged index created together with a combiner. -/
def Combiner.cind (C : Combiner) : SiteIndex :=
  { tags := C.tags, plev := 0, dim := combinedDim C.inds }

/-- The call `combiner(inds, {"Tags", tags})`: the combiner tensor and the merged index. -/
def combiner (inds : IndexSet) (tags : String) : Combiner × SiteIndex :=
  let C : Combiner := { inds := inds, tags := tags }
  (C, C.cind)

/-- Physical-index content of one site tensor of the chain.  The link indices are carried by
the entry type `α` (an entry is the block of the tensor at fixed physical coordinates).
`oper s s' elt` is operator form, two physical indices; `vect v elt` is vector form, one
merged physical index. -/
inductive SiteTensor (α : Type)
  | oper (s s' : SiteIndex) (elt : Fin s.dim → Fin s'.dim → α)
  | vect (v : SiteIndex) (elt : Fin v.dim → α)

/-- The physical indices of a site tensor (`siteInds(rho_, i)`). -/
def SiteTensor.siteInds {α : Type} : SiteTensor α → IndexSet
  | .oper s s' _ => [s, s']
  | .vect v _ => [v]

/-- Merged coordinate of the pair `(i, j)`: the first index runs fastest. -/
def flattenIx {d1 d2 : Nat} (i : Fin d1) (j : Fin d2) : Fin (d1 * d2) :=
  ⟨i.val + d1 * j.val, by
    have hi := i.isLt
    have hj := j.isLt
    calc i.val + d1 * j.val < d1 + d1 * j.val := by omega
      _ = d1 * (j.val + 1) := by ring
      _ ≤ d1 * d2 := Nat.mul_le_mul_left d1 hj⟩

/-- First coordinate of a merged coordinate. -/
def unflattenFst {d1 d2 : Nat} (k : Fin (d1 * d2)) : Fin d1 :=
  ⟨k.val % d1, Nat.mod_lt _ (Nat.pos_of_ne_zero (fun h => by
    have hk := k.isLt
    simp [h] at hk))⟩

/-- Second coordinate of a merged coordinate. -/
def unflattenSnd {d1 d2 : Nat} (k : Fin (d1 * d2)) : Fin d2 :=
  ⟨k.val / d1, Nat.div_lt_of_lt_mul k.isLt⟩

/-- Contraction of a site tensor with a combiner, `T *= C`.  A tensor that carries the two
indices the combiner merges gets them replaced by the merged index; a tensor that carries the
merged index gets it split again.  The combiner is the index-flattening bijection, so no
arithmetic on the entries takes place.  Index configurations other than these two are outside
this model of the library and are reported as a library error. -/
def SiteTensor.mulCombiner {α : Type} : SiteTensor α → Combiner → Except DMTError (SiteTensor α)
  | .oper s s' elt, ⟨[a, b], tags⟩ =>
    if a = s ∧ b = s' then
      .ok (.vect ⟨tags, 0, s.dim * s'.dim⟩ (fun k => elt (unflattenFst k) (unflattenSnd k)))
    else .error (.library "combiner: indices not found on the tensor")
  | .vect v elt, ⟨[a, b], tags⟩ =>
    if h : v = ⟨tags, 0, a.dim * b.dim⟩ then
      .ok (.oper a b (fun i j => elt (Fin.cast (by rw [h]) (flattenIx i j))))
    else .error (.library "combiner: merged index not found on the tensor")
  | _, _ => .error (.library "combiner: unsupported index configuration")

/-- The chain `rho_` (an `MPO`): the site tensors `A_` (site `i` is stored at list position
`i-1`) and the orthogonality frontier `l_orth_lim_`, `r_orth_lim_`. -/
structure MPO (α : Type) where
  A_ : List (SiteTensor α)
  l_orth_lim_ : Int
  r_orth_lim_ : Int

/-- The call `length(rho_)`. -/
def MPO.length {α : Type} (rho : MPO α) : Nat := rho.A_.length

/-- The accessor `rho_.leftLim()`. -/
def MPO.leftLim {α : Type} (rho : MPO α) : Int := rho.l_orth_lim_

/-- The accessor `rho_.rightLim()`. -/
def MPO.rightLim {α : Type} (rho : MPO α) : Int := rho.r_orth_lim_

/-- The setter `rho_.leftLim(j)`. -/
def MPO.setLeftLim {α : Type} (rho : MPO α) (j : Int) : MPO α := { rho with l_orth_lim_ := j }

/-- The setter `rho_.rightLim(j)`. -/
def MPO.setRightLim {α : Type} (rho : MPO α) (j : Int) : MPO α := { rho with r_orth_lim_ := j }

/-- The statement `rho_.ref(i) *= C`: write access to site `i`, which in the tensor library
also moves the frontier off the site that is being written, followed by the contraction with
the combiner.  A site number outside the chain makes the library throw. -/
def MPO.refMulCombiner {α : Type} (rho : MPO α) (i : Nat) (C : Combiner) :
    Except DMTError (MPO α) :=
  match rho.A_[i - 1]? with
  | none => .error (.library "site number out of range")
  | some t =>
    match t.mulCombiner C with
    | .error e => .error e
    | .ok t' =>
      .ok { A_ := rho.A_.set (i - 1) t'
            l_orth_lim_ := if (i : Int) ≤ rho.l_orth_lim_ then (i : Int) - 1 else rho.l_orth_lim_
            r_orth_lim_ := if (i : Int) ≥ rho.r_orth_lim_ then (i : Int) + 1 else rho.r_orth_lim_ }

/-- The call `siteInds(rho_, i)`. -/
def MPO.siteInds {α : Type} (rho : MPO α) (i : Nat) : IndexSet :=
  match rho.A_[i - 1]? with
  | none => []
  | some t => t.siteInds

/-- The data members of `class DMTDensityMatrix` (the site set, used only to look up
identity operators, is left out). -/
structure DMTDensityMatrix (α : Type) where
  presRange_ : Int
  vectorized_ : Bool
  siteIndsStore_ : List IndexSet
  rho_ : MPO α
  vecCombs : List Combiner
  vecInds : List SiteIndex

/-- The call `v.resize(n)` of `std::vector`: keep the first `n` elements, pad with default
elements. -/
def resize {β : Type} [Inhabited β] (v : List β) (n : Nat) : List β :=
  v.take n ++ List.replicate (n - v.length) default

/-- Body of the loop of `vec()` for site `i` (lines 504-508). -/
def vecBody {α : Type} (i : Nat) (self : DMTDensityMatrix α) :
    Except DMTError (DMTDensityMatrix α) :=
  let inds := self.rho_.siteInds i
  let store := self.siteIndsStore_.set (i - 1) inds
  let cv := combiner inds ("Site, n=" ++ toString i)
  let combs := self.vecCombs.set (i - 1) cv.1
  let vinds := self.vecInds.set (i - 1) cv.2
  match self.rho_.refMulCombiner i (combs.getD (i - 1) default) with
  | .error e => .error e
  | .ok rho =>
    .ok { self with siteIndsStore_ := store, vecCombs := combs, vecInds := vinds, rho_ := rho }

/-- The method `DMTDensityMatrix::vec()` (lines 493-511). -/
def vec {α : Type} (self : DMTDensityMatrix α) : Except DMTError (DMTDensityMatrix α) :=
  if self.vectorized_ then .error .alreadyVectorized
  else
    let n := self.rho_.length
    forRange1 n vecBody
      { self with
        siteIndsStore_ := List.replicate n []
        vectorized_ := true
        vecCombs := resize self.vecCombs n
        vecInds := resize self.vecInds n }

/-- Body of the loop of `unvec()` for site `i` (line 521). -/
def unvecBody {α : Type} (i : Nat) (self : DMTDensityMatrix α) :
    Except DMTError (DMTDensityMatrix α) :=
  match self.rho_.refMulCombiner i (self.vecCombs.getD (i - 1) default) with
  | .error e => .error e
  | .ok rho => .ok { self with rho_ := rho }

/-- The method `DMTDensityMatrix::unvec()` (lines 513-523). -/
def unvec {α : Type} (self : DMTDensityMatrix α) : Except DMTError (DMTDensityMatrix α) :=
  if !self.vectorized_ then .error .notVectorized
  else forRange1 self.rho_.length unvecBody { self with vectorized_ := false }

/-- The three guards at the head of `svdBond` (lines 271-283), in source order. -/
def svdBondGuards {α : Type} (b : Int) (dir : Direction) (self : DMTDensityMatrix α) :
    Except DMTError Unit :=
  if dir = Direction.Fromleft ∧ b - 1 > self.rho_.leftLim then .error .leftLim
  else if dir = Direction.Fromright ∧ b + 2 < self.rho_.rightLim then .error .rightLim
  else if self.presRange_ < 1 then .error .presRange
  else .ok ()

/-- The frontier update at the end of `svdBond` (lines 480-489). -/
def svdBondLimits {α : Type} (b : Int) (dir : Direction) (rho : MPO α) : MPO α :=
  if dir = Direction.Fromleft then
    let rho := rho.setLeftLim b
    if rho.rightLim < b + 2 then rho.setRightLim (b + 2) else rho
  else
    let rho := if rho.leftLim > b - 1 then rho.setLeftLim (b - 1) else rho
    rho.setRightLim (b + 1)

/-- The method `DMTDensityMatrix::svdBond` as far as the frontier is concerned: the guards,
then the tensor stage of lines 285-477, then the frontier update.  The tensor stage
(`tensorStage`) stands for the factorisations and site-tensor updates done through the tensor
library; it may throw and may leave the object in any state (writing to a site tensor through
`rho_.ref` moves the frontier too). -/
def svdBond {α : Type}
    (tensorStage : Int → Direction → DMTDensityMatrix α → Except String (DMTDensityMatrix α))
    (b : Int) (dir : Direction) (self : DMTDensityMatrix α) :
    Except DMTError (DMTDensityMatrix α) :=
  match svdBondGuards b dir self with
  | .error e => .error e
  | .ok () =>
    match liftLibrary (tensorStage b dir self) with
    | .error e => .error e
    | .ok self' => .ok { self' with rho_ := svdBondLimits b dir self'.rho_ }

/-- A sequence of bond updates, each with its own tensor stage, bond and direction, stopping at
the first one that throws. -/
def svdBondSeq {α : Type} :
    List ((Int → Direction → DMTDensityMatrix α → Except String (DMTDensityMatrix α)) ×
      Int × Direction) →
    DMTDensityMatrix α → Except DMTError (DMTDensityMatrix α)
  | [], self => .ok self
  | (stage, b, dir) :: rest, self =>
    match svdBond stage b dir self with
    | .error e => .error e
    | .ok self' => svdBondSeq rest self'

/-! ## The truncation branch of `svdBond` (lines 356-427) -/

/-- A dense order-2 tensor: `T i j` is `eltC(T, i, j)`, with 1-based coordinates.  Only the
entries within the dimensions of its two indices are meaningful. -/
abbrev Tensor2 (K : Type) := Int → Int → K

/-- The call `T.set(i, j, v)`. -/
def Tensor2.set {K : Type} (T : Tensor2 K) (i j : Int) (v : K) : Tensor2 K :=
  fun a c => if a = i ∧ c = j then v else T a c

/-- The tensor with all entries zero (a freshly constructed `ITensor`, or `T.fill(0)`). -/
def Tensor2.zero {K : Type} [Zero K] : Tensor2 K := fun _ _ => 0

/-- Entrywise complex conjugate.  The member functions `T.conj()` and `T.dag()` of the tensor
library both do this to `T` itself and return a reference to it (`dag()` also flips the arrows
of the indices, which has no effect on the entries); like `replaceTags`, `replaceInds`, `fill`
and `set`, which this file calls as statements, they are mutating member functions.  The forms
that leave their argument alone are the free functions `conj(T)` and `dag(T)`, as in
`CL = dag(CL)` in `projector`. -/
def Tensor2.conj {K : Type} [Star K] (T : Tensor2 K) : Tensor2 K := fun a c => star (T a c)

/-- Contraction `P * M` over the first index of both, of dimension `n`. -/
def mulFirstFirst {K : Type} [Semiring K] (n : Int) (P M : Tensor2 K) : Tensor2 K :=
  fun a j => ∑ i ∈ Finset.Icc 1 n, P i a * M i j

/-- Contraction `M * P` over the second index of `M` and the first index of `P`, of
dimension `n`. -/
def mulLastFirst {K : Type} [Semiring K] (n : Int) (M P : Tensor2 K) : Tensor2 K :=
  fun a c => ∑ j ∈ Finset.Icc 1 n, M a j * P j c

/-- Contraction `M * P` over the second index of both, of dimension `n`. -/
def mulLastLast {K : Type} [Semiring K] (n : Int) (M P : Tensor2 K) : Tensor2 K :=
  fun i j => ∑ c ∈ Finset.Icc 1 n, M i c * P j c

/-- Line 357: `(D*setElt(qrLinkL=1).dag())*(D*setElt(qrLinkR=1).dag())/eltC(D,1,1)`, the outer
product of row 1 and column 1 of `D` divided by `D[1,1]`.  This is the value the line computes
when `D[1,1]` is not zero; for `D[1,1] = 0` the line produces infinities and NaNs, which
`connectedCompMachine` describes, and the field value given here has no meaning. -/
def connectedComp {K : Type} [Field K] (D : Tensor2 K) : Tensor2 K :=
  fun a c => (D 1 c * D a 1) / D 1 1

/-- Lines 366-374: the fresh tensor `subD` and the loops that copy the entries of non-zero
magnitude of the block `i > sdimL`, `j > sdimR` of `D` into it. -/
def copyOut {K : Type} [Zero K] [DecidableEq K] (sdimL sdimR dimL dimR : Int) (D : Tensor2 K) :
    Tensor2 K :=
  forUpTo (sdimL + 1) dimL (fun i subD =>
    forUpTo (sdimR + 1) dimR (fun j subD =>
      let el := D i j
      if el ≠ 0 then subD.set (i - sdimL) (j - sdimR) el else subD) subD) Tensor2.zero

/-- The options of `svdBond` that decide how the residual block is truncated (`Noise`,
`Cutoff`, `UseSVD`, `MaxDim`). -/
structure TruncArgs where
  noise : ℚ
  cutoff : ℚ
  usesvd : Bool
  maxDim : Int

/-- Lines 377-410: the truncation of `subD`.  With no capacity left (`subMaxDim <= 0`) the
block is filled with zeros and no factorisation is called; otherwise the accurate SVD
(`svd`, then `W*S*V`) or the density-matrix decomposition (`denmatDecomp`, then `W*V`) is called
with `MaxDim = subMaxDim`.  The two library factorisations are parameters; they may throw. -/
def truncateResidual {K : Type} [Zero K]
    (svd denmatDecomp : Int → Tensor2 K → Except String (Tensor2 K))
    (args : TruncArgs) (sdimL sdimR : Int) (subD : Tensor2 K) : Except DMTError (Tensor2 K) :=
  let subMaxDim := args.maxDim - (sdimL + sdimR)
  if subMaxDim ≤ 0 then .ok Tensor2.zero
  else if args.usesvd || (args.noise == 0 && decide (args.cutoff < 1 / 10 ^ 12)) then
    liftLibrary (svd subMaxDim subD)
  else
    liftLibrary (denmatDecomp subMaxDim subD)

/-- Lines 412-418: the loops that write `subD` back into the block `i > sdimL`, `j > sdimR` of
`D`, at the entries of `D` of non-zero magnitude. -/
def writeBack {K : Type} [Zero K] [DecidableEq K] (sdimL sdimR dimL dimR : Int)
    (D subD : Tensor2 K) : Tensor2 K :=
  forUpTo (sdimL + 1) dimL (fun i D =>
    forUpTo (sdimR + 1) dimR (fun j D =>
      let el := D i j
      if el ≠ 0 then D.set i j (subD (i - sdimL) (j - sdimR)) else D) D) D

/-- Line 356, `D = QbasisL.conj() * D * QbasisR`, given the already conjugated `QbasisL`:
`QbasisL` carries the indices `(indDL, qrLinkL)`, `D` carries `(indDL, indDR)` and `QbasisR`
carries `(indDR, qrLinkR)`. -/
def rotateBond {K : Type} [Semiring K] (dimDL dimDR : Int) (QbasisLconj D QbasisR : Tensor2 K) :
    Tensor2 K :=
  mulLastFirst dimDR (mulFirstFirst dimDL QbasisLconj D) QbasisR

/-- Line 358, `D -= connectedComp`. -/
def subtractConnected {K : Type} [Field K] (D : Tensor2 K) : Tensor2 K :=
  fun a c => D a c - connectedComp D a c

/-- Line 427, `newAA = QbasisL.dag() * D * QbasisR.dag()`, given the two tensors as `dag()`
leaves them. -/
def unrotateBond {K : Type} [Semiring K] (dimL dimR : Int) (QbasisLdag D QbasisRdag : Tensor2 K) :
    Tensor2 K :=
  mulLastLast dimR (mulLastFirst dimL QbasisLdag D) QbasisRdag

/-- The successive values of the variables of lines 357-420. -/
structure TruncationTrace (K : Type) where
  /-- `connectedComp`, line 357. -/
  connected : Tensor2 K
  /-- `D` after line 358. -/
  residual : Tensor2 K
  /-- `subD` after the copy loops, line 374. -/
  subD : Tensor2 K
  /-- `subD` after the truncation, line 410. -/
  subDTrunc : Tensor2 K
  /-- `D` after the write-back loops, line 418. -/
  written : Tensor2 K
  /-- `D` after line 420. -/
  reassembled : Tensor2 K

/-- Lines 357-420 of `svdBond`: from the rotated bond matrix `D` (indices `qrLinkL`, `qrLinkR`)
to the reassembled one.  The coordinates at which the loops access `subD`, `i - sdimL` for
`sdimL < i <= dim(qrLinkL)` and `j - sdimR` for `sdimR < j <= dim(qrLinkR)`, lie within the
dimensions `dim(qrLinkL) - sdimL` and `dim(qrLinkR) - sdimR` that `reduceDimTop` gives to the
indices of `subD`, so element access needs no range check here. -/
def svdBondResidual {K Q : Type} [Field K] [DecidableEq K]
    (svd denmatDecomp : Int → Tensor2 K → Except String (Tensor2 K))
    (args : TruncArgs) (qrLinkL qrLinkR : Index Q) (sdimL sdimR : Int) (D : Tensor2 K) :
    Except DMTError (TruncationTrace K) :=
  let connected := connectedComp D
  let D := subtractConnected D
  match reduceDimTop qrLinkL sdimL with
  | .error e => .error e
  | .ok _subindL =>
    match reduceDimTop qrLinkR sdimR with
    | .error e => .error e
    | .ok _subindR =>
      let subD := copyOut sdimL sdimR qrLinkL.dim qrLinkR.dim D
      match truncateResidual svd denmatDecomp args sdimL sdimR subD with
      | .error e => .error e
      | .ok subDTrunc =>
        let written := writeBack sdimL sdimR qrLinkL.dim qrLinkR.dim D subDTrunc
        .ok { connected := connected, residual := D, subD := subD, subDTrunc := subDTrunc,
              written := written, reassembled := fun a c => written a c + connected a c }

/-- Lines 356-427 of `svdBond`, the truncation branch up to `newAA`: the trace of lines
357-420 and `newAA`.  Line 356 conjugates the local `QbasisL` in place (`QbasisL.conj()`), so
that in line 427 `QbasisL.dag()` conjugates the already conjugated tensor, while
`QbasisR.dag()` conjugates `QbasisR` for the first time. -/
def svdBondTruncate {K Q : Type} [Field K] [StarRing K] [DecidableEq K]
    (svd denmatDecomp : Int → Tensor2 K → Except String (Tensor2 K))
    (args : TruncArgs) (indDL indDR qrLinkL qrLinkR : Index Q) (sdimL sdimR : Int)
    (QbasisL QbasisR D : Tensor2 K) : Except DMTError (TruncationTrace K × Tensor2 K) :=
  let QbasisL := QbasisL.conj
  let D := rotateBond indDL.dim indDR.dim QbasisL D QbasisR
  match svdBondResidual svd denmatDecomp args qrLinkL qrLinkR sdimL sdimR D with
  | .error e => .error e
  | .ok tr =>
    let QbasisL := QbasisL.conj
    let QbasisR := QbasisR.conj
    .ok (tr, unrotateBond qrLinkL.dim qrLinkR.dim QbasisL tr.reassembled QbasisR)

/-! ## Lines 357-418 on machine values

Line 357 divides by `eltC(D,1,1)` without a test.  When that entry is zero the result is not a
number, no exception is raised, and the loops go on with it.  The definitions of this section
follow the same lines as `svdBondResidual`, on entries that are a number, an infinity or a NaN;
arithmetic on numbers stays exact. -/

/-- A tensor entry as the machine holds it: a number, an infinity (only its magnitude is
tracked, the sign plays no part in lines 357-418) or a NaN. -/
inductive MachineVal (K : Type)
  | num (x : K)
  | inf
  | nan
  deriving DecidableEq

/-- The entry `0`. -/
instance instZeroMachineVal {K : Type} [Zero K] : Zero (MachineVal K) := ⟨MachineVal.num 0⟩

/-- Division of two numbers: the quotient for a non-zero divisor, NaN for `0/0`, an infinity
for a non-zero number over zero. -/
def MachineVal.div {K : Type} [Field K] [DecidableEq K] (x y : K) : MachineVal K :=
  if y ≠ 0 then MachineVal.num (x / y)
  else if x = 0 then MachineVal.nan
  else MachineVal.inf

/-- The difference `x - v` of a number and a machine value: an infinity and a NaN stay what
they are. -/
def MachineVal.subFrom {K : Type} [Sub K] (x : K) : MachineVal K → MachineVal K
  | MachineVal.num y => MachineVal.num (x - y)
  | MachineVal.inf => MachineVal.inf
  | MachineVal.nan => MachineVal.nan

/-- The test `abs(el) > 0`: true for a non-zero number and for an infinity, false for zero
and for a NaN (every comparison with a NaN is false). -/
def MachineVal.absPos {K : Type} [Zero K] [DecidableEq K] : MachineVal K → Bool
  | MachineVal.num x => decide (x ≠ 0)
  | MachineVal.inf => true
  | MachineVal.nan => false

/-- Line 357 on machine values, for a bond matrix `D` of numbers. -/
def connectedCompMachine {K : Type} [Field K] [DecidableEq K] (D : Tensor2 K) :
    Tensor2 (MachineVal K) :=
  fun a c => MachineVal.div (D 1 c * D a 1) (D 1 1)

/-- Line 358, `D -= connectedComp`, on machine values. -/
def subtractConnectedMachine {K : Type} [Field K] [DecidableEq K] (D : Tensor2 K) :
    Tensor2 (MachineVal K) :=
  fun a c => MachineVal.subFrom (D a c) (connectedCompMachine D a c)

/-- Lines 366-374 on machine values. -/
def copyOutMachine {K : Type} [Zero K] [DecidableEq K] (sdimL sdimR dimL dimR : Int)
    (D : Tensor2 (MachineVal K)) : Tensor2 (MachineVal K) :=
  forUpTo (sdimL + 1) dimL (fun i subD =>
    forUpTo (sdimR + 1) dimR (fun j subD =>
      let el := D i j
      if el.absPos then subD.set (i - sdimL) (j - sdimR) el else subD) subD) Tensor2.zero

/-- Lines 412-418 on machine values. -/
def writeBackMachine {K : Type} [Zero K] [DecidableEq K] (sdimL sdimR dimL dimR : Int)
    (D subD : Tensor2 (MachineVal K)) : Tensor2 (MachineVal K) :=
  forUpTo (sdimL + 1) dimL (fun i D =>
    forUpTo (sdimR + 1) dimR (fun j D =>
      let el := D i j
      if el.absPos then D.set i j (subD (i - sdimL) (j - sdimR)) else D) D) D

/-- The successive values of the variables of lines 357-418 on machine values. -/
structure MachineTrace (K : Type) where
  /-- `connectedComp`, line 357. -/
  connected : Tensor2 (MachineVal K)
  /-- `D` after line 358. -/
  residual : Tensor2 (MachineVal K)
  /-- `subD` after the copy loops, line 374. -/
  subD : Tensor2 (MachineVal K)
  /-- `subD` after the truncation, line 410. -/
  subDTrunc : Tensor2 (MachineVal K)
  /-- `D` after the write-back loops, line 418. -/
  written : Tensor2 (MachineVal K)

/-- Lines 357-418 of `svdBond` on machine values: from the rotated bond matrix `D`, a matrix
of numbers, to `D` after the write-back loops. -/
def svdBondResidualMachine {K Q : Type} [Field K] [DecidableEq K]
    (svd denmatDecomp :
      Int → Tensor2 (MachineVal K) → Except String (Tensor2 (MachineVal K)))
    (args : TruncArgs) (qrLinkL qrLinkR : Index Q) (sdimL sdimR : Int) (D : Tensor2 K) :
    Except DMTError (MachineTrace K) :=
  let connected := connectedCompMachine D
  let D := subtractConnectedMachine D
  match reduceDimTop qrLinkL sdimL with
  | .error e => .error e
  | .ok _subindL =>
    match reduceDimTop qrLinkR sdimR with
    | .error e => .error e
    | .ok _subindR =>
      let subD := copyOutMachine sdimL sdimR qrLinkL.dim qrLinkR.dim D
      match truncateResidual svd denmatDecomp args sdimL sdimR subD with
      | .error e => .error e
      | .ok subDTrunc =>
        .ok { connected := connected, residual := D, subD := subD, subDTrunc := subDTrunc,
              written := writeBackMachine sdimL sdimR qrLinkL.dim qrLinkR.dim D subDTrunc }

/-! ## Specification functions and sample data

The definitions below are not translations of source functions: they are the closed forms
that the loops are proved to compute, and concrete inputs on which the theorems are
instantiated. -/

/-- The block list `bs` with its first `c` basis elements removed: whole leading blocks are
dropped while they fit into `c`, the first block that does not fit is shortened, the rest is
kept. -/
def dropFront {Q : Type} : Int → List (Q × Int) → List (Q × Int)
  | _, [] => []
  | c, (q, s) :: rest => if s - c > 0 then (q, s - c) :: rest else dropFront (c - s) rest

/-- The quantum number of each basis element of a block list, in order. -/
def basisLabels {Q : Type} (bs : List (Q × Int)) : List Q :=
  bs.flatMap (fun b => List.replicate b.2.toNat b.1)

/-- A well-formed index: non-negative dimension, positive block sizes, and, when it has
quantum numbers, a dimension equal to the total of its block sizes. -/
def Index.WellFormed {Q : Type} (ind : Index Q) : Prop :=
  0 ≤ ind.dim ∧ (∀ b ∈ ind.qns, 0 < b.2) ∧ (ind.qns ≠ [] → ind.dim = totalDim ind.qns)

/-- The Horner tail `p = sum_{k=0}^{j} m!/(m+k)! x^k`: when the Taylor loop is about to run
with `ord = m`, having run `j` times, `term = p * x` (at the start `j = 0` and `term = 1 * x`;
after the iteration with `ord = m+1` the tensor `gate` is `p`). -/
def hornerTail (K : Type) {A : Type} [Field K] [Ring A] [Algebra K A] (x : A) (m j : Nat) : A :=
  ∑ k ∈ Finset.range (j + 1), (((m.factorial : K)) / ((m + k).factorial : K)) • x ^ k

/-- The Taylor polynomial `sum_{k=0}^{n} x^k / k!`. -/
def taylorPoly (K : Type) {A : Type} [Field K] [Ring A] [Algebra K A] (x : A) (n : Nat) : A :=
  ∑ k ∈ Finset.range (n + 1), ((k.factorial : K))⁻¹ • x ^ k

/-- The `n` by `m` matrix of the meaningful entries of a tensor (coordinates `1..n`, `1..m`). -/
def toMatrix {K : Type} (n m : Nat) (T : Tensor2 K) : Matrix (Fin n) (Fin m) K :=
  fun i j => T ((i.val : Int) + 1) ((j.val : Int) + 1)

/-- A plain link index of dimension 2. -/
def sampleLink2 : Index Int :=
  { tags := "Link", dim := 2, qns := [] }

/-- A complex unitary basis change of dimension 2, `diag(i, 1)`. -/
def sampleQbasisL : Tensor2 ℂ := fun i a =>
  if i = 1 ∧ a = 1 then Complex.I else if i = 2 ∧ a = 2 then 1 else 0

/-- The identity basis change. -/
def sampleQbasisR : Tensor2 ℂ := fun j c => if j = c then 1 else 0

/-- The bond matrix `[[1, 2], [3, 4]]`. -/
def sampleBond : Tensor2 ℂ := fun i j => ((2 * (i - 1) + j : Int) : ℂ)

/-- Options with `MaxDim = 10` and the accurate SVD selected. -/
def sampleArgsFull : TruncArgs :=
  { noise := 0, cutoff := 0, usesvd := false, maxDim := 10 }

/-- A plain link index of dimension 3. -/
def sampleLink : Index Int :=
  { tags := "Link,qr", dim := 3, qns := [] }

/-- A rotated bond matrix of dimension 3 by 3: `[[1, 0, 0], [0, -175, 300], [0, 300, 0]]`.  Its
lower right 2 by 2 block has the singular value decomposition
`225 * u1 * v1^T + 400 * u2 * v2^T` with `u1 = v1 = (3, 4)/5`, `u2 = (4, -3)/5` and
`v2 = (-4, 3)/5`. -/
def sampleRotated : Tensor2 ℚ := fun i j =>
  if i = 1 ∧ j = 1 then 1
  else if i = 2 ∧ j = 2 then -175
  else if (i = 2 ∧ j = 3) ∨ (i = 3 ∧ j = 2) then 300
  else 0

/-- The rank-one truncation of the lower right block of `sampleRotated`, the term
`400 * u2 * v2^T = [[-256, 192], [192, -144]]` of its singular value decomposition. -/
def sampleTruncated : Tensor2 ℚ := fun a c =>
  if a = 1 ∧ c = 1 then -256
  else if (a = 1 ∧ c = 2) ∨ (a = 2 ∧ c = 1) then 192
  else if a = 2 ∧ c = 2 then -144
  else 0

/-- A rotated bond matrix of dimension 3 by 3 whose entry `(1, 1)` is zero:
`[[0, 0, 0], [0, 5, 0], [0, 0, 7]]`. -/
def sampleTraceless : Tensor2 ℚ := fun i j =>
  if i = 2 ∧ j = 2 then 5
  else if i = 3 ∧ j = 3 then 7
  else 0

/-- Options with `MaxDim = 3` and the accurate SVD selected (no noise, cutoff `0`). -/
def sampleArgs : TruncArgs :=
  { noise := 0, cutoff := 0, usesvd := false, maxDim := 3 }

/-- A link index of dimension 5 with two quantum-number blocks, of sizes 2 and 3. -/
def sampleIndex : Index Int :=
  { tags := "Link,qr", dim := 5, qns := [(0, 2), (1, 3)] }

/-- Vector form of a site tensor in operator form, with the merged index tagged `tags`. -/
def combineSite {α : Type} (tags : String) : SiteTensor α → SiteTensor α
  | .oper s s' elt =>
    .vect ⟨tags, 0, s.dim * s'.dim⟩ (fun k => elt (unflattenFst k) (unflattenSnd k))
  | t => t

/-- The tags `vec()` gives to the merged index of site `j+1` (list position `j`). -/
def vecTags (j : Nat) : String := "Site, n=" ++ toString (j + 1)

/-- A site tensor is in operator form. -/
def SiteTensor.IsOper {α : Type} : SiteTensor α → Prop
  | .oper _ _ _ => True
  | .vect _ _ => False

/-- A two-site chain of spin-1/2 sites in operator form with integer entries; the frontier is
given by the arguments. -/
def sampleChain (l r : Int) : DMTDensityMatrix Int :=
  { presRange_ := 1
    vectorized_ := false
    siteIndsStore_ := []
    rho_ :=
      { A_ := [.oper ⟨"Site,n=1", 0, 2⟩ ⟨"Site,n=1", 1, 2⟩ (fun i j => (i.val : Int) + 2 * j.val),
               .oper ⟨"Site,n=2", 0, 2⟩ ⟨"Site,n=2", 1, 2⟩ (fun i j => 5 - (i.val : Int) * j.val)]
        l_orth_lim_ := l
        r_orth_lim_ := r }
    vecCombs := []
    vecInds := [] }

/-- The sample chain in vector form, as `vec()` leaves `sampleChain 0 3`: two sites with one
merged physical index of dimension 4 each (entry `k` is entry `(k % 2, k / 2)` of the operator
form), and the per-site combiners, merged indices and site-index sets stored. -/
def sampleVectorized : DMTDensityMatrix Int :=
  { presRange_ := 1
    vectorized_ := true
    siteIndsStore_ := [[⟨"Site,n=1", 0, 2⟩, ⟨"Site,n=1", 1, 2⟩],
                       [⟨"Site,n=2", 0, 2⟩, ⟨"Site,n=2", 1, 2⟩]]
    rho_ :=
      { A_ := [.vect ⟨"Site, n=1", 0, 4⟩
                 (fun k => ((k.val % 2 : Nat) : Int) + 2 * ((k.val / 2 : Nat) : Int)),
               .vect ⟨"Site, n=2", 0, 4⟩
                 (fun k => 5 - ((k.val % 2 : Nat) : Int) * ((k.val / 2 : Nat) : Int))]
        l_orth_lim_ := 0
        r_orth_lim_ := 3 }
    vecCombs := [⟨[⟨"Site,n=1", 0, 2⟩, ⟨"Site,n=1", 1, 2⟩], "Site, n=1"⟩,
                 ⟨[⟨"Site,n=2", 0, 2⟩, ⟨"Site,n=2", 1, 2⟩], "Site, n=2"⟩]
    vecInds := [⟨"Site, n=1", 0, 4⟩, ⟨"Site, n=2", 0, 4⟩] }

/-- The stored state of a chain that the specification expects `unvec()` to clear. -/
def storedState {α : Type} (self : DMTDensityMatrix α) :
    Bool × List Combiner × List SiteIndex × List IndexSet :=
  (self.vectorized_, self.vecCombs, self.vecInds, self.siteIndsStore_)

/-- The state `unvec()` returns on `sampleVectorized`: the site tensors are back in operator
form (entry `(i, j)` is entry `i + 2*j` of the vector form), the flag is cleared, and the stored
combiners, merged indices and site-index sets are still there. -/
def sampleUnvectorized : DMTDensityMatrix Int :=
  { sampleVectorized with
    vectorized_ := false
    rho_ :=
      { A_ := [.oper ⟨"Site,n=1", 0, 2⟩ ⟨"Site,n=1", 1, 2⟩
                 (fun i j => (((i.val + 2 * j.val) % 2 : Nat) : Int)
                   + 2 * (((i.val + 2 * j.val) / 2 : Nat) : Int)),
               .oper ⟨"Site,n=2", 0, 2⟩ ⟨"Site,n=2", 1, 2⟩
                 (fun i j => 5 - (((i.val + 2 * j.val) % 2 : Nat) : Int)
                   * (((i.val + 2 * j.val) / 2 : Nat) : Int))]
        l_orth_lim_ := 0
        r_orth_lim_ := 3 } }

/-! # Theorems -/

/-! ## The frontier of `svdBond` -/

theorem svdBondLimits_lt {α : Type} (b : Int) (dir : Direction) (rho : MPO α) :
    (svdBondLimits b dir rho).leftLim < (svdBondLimits b dir rho).rightLim := by
  simp only [svdBondLimits, MPO.leftLim, MPO.rightLim, MPO.setLeftLim, MPO.setRightLim]
  split_ifs <;> dsimp only <;> omega

theorem svdBond_ok_limits {α : Type}
    (stage : Int → Direction → DMTDensityMatrix α → Except String (DMTDensityMatrix α))
    (b : Int) (dir : Direction) (self self' : DMTDensityMatrix α)
    (h : svdBond stage b dir self = .ok self') :
    self'.rho_.leftLim < self'.rho_.rightLim := by
  unfold svdBond at h
  cases hg : svdBondGuards b dir self with
  | error e => simp [hg] at h
  | ok u =>
    cases hs : liftLibrary (stage b dir self) with
    | error e => simp [hg, hs] at h
    | ok s1 =>
      simp only [hg, hs, Except.ok.injEq] at h
      subst h
      exact svdBondLimits_lt b dir s1.rho_

theorem svdBondSeq_ok_limits {α : Type} :
    ∀ (steps : List ((Int → Direction → DMTDensityMatrix α →
          Except String (DMTDensityMatrix α)) × Int × Direction))
      (self self' : DMTDensityMatrix α),
      (steps ≠ [] ∨ self.rho_.leftLim < self.rho_.rightLim) →
      svdBondSeq steps self = .ok self' →
      self'.rho_.leftLim < self'.rho_.rightLim := by
  intro steps
  induction steps with
  | nil =>
    intro self self' h0 h
    simp only [svdBondSeq, Except.ok.injEq] at h
    subst h
    rcases h0 with h0 | h0
    · exact absurd rfl h0
    · exact h0
  | cons st rest ih =>
    intro self self' _ h
    obtain ⟨stage, b, dir⟩ := st
    simp only [svdBondSeq] at h
    cases h1 : svdBond stage b dir self with
    | error e => simp [h1] at h
    | ok s1 =>
      simp only [h1] at h
      exact ih s1 self' (Or.inr (svdBond_ok_limits stage b dir self s1 h1)) h

/-- C1. Frontier invariant of `svdBond`: from any chain state (any `leftLim`, `rightLim`), for
every bond `b` and every direction, a call of `svdBond` that completes without raising leaves
`leftLim < rightLim`; hence after any non-empty finite sequence of successful bond updates
(and after the empty one when the invariant held at the start) `leftLim < rightLim` holds. -/
theorem svdBond_frontier_invariant {α : Type} :
    (∀ (stage : Int → Direction → DMTDensityMatrix α → Except String (DMTDensityMatrix α))
        (b : Int) (dir : Direction) (self self' : DMTDensityMatrix α),
        svdBond stage b dir self = .ok self' →
        self'.rho_.leftLim < self'.rho_.rightLim) ∧
    (∀ (steps : List ((Int → Direction → DMTDensityMatrix α →
          Except String (DMTDensityMatrix α)) × Int × Direction))
        (self self' : DMTDensityMatrix α),
        (steps ≠ [] ∨ self.rho_.leftLim < self.rho_.rightLim) →
        svdBondSeq steps self = .ok self' →
        self'.rho_.leftLim < self'.rho_.rightLim) :=
  ⟨svdBond_ok_limits, svdBondSeq_ok_limits⟩

/-- A left-to-right update of bond 1 on a two-site chain whose frontier violates
`leftLim < rightLim` beforehand (`leftLim = 5`, `rightLim = 0`), and the same update followed
by a right-to-left update of the same bond. -/
theorem svdBond_frontier_invariant_witness :
    (svdBond (fun _ _ s => .ok s) 1 Direction.Fromleft (sampleChain 5 0) = .ok (sampleChain 1 3) ∧
      (sampleChain 1 3).rho_.leftLim < (sampleChain 1 3).rho_.rightLim) ∧
    (svdBondSeq [(fun _ _ s => .ok s, 1, Direction.Fromleft),
        (fun _ _ s => .ok s, 1, Direction.Fromright)] (sampleChain 5 0) = .ok (sampleChain 0 2) ∧
      (sampleChain 0 2).rho_.leftLim < (sampleChain 0 2).rho_.rightLim) :=
  ⟨⟨rfl, (svdBond_frontier_invariant (α := Int)).1 (fun _ _ s => .ok s) 1 Direction.Fromleft
      (sampleChain 5 0) (sampleChain 1 3) rfl⟩,
    ⟨rfl, (svdBond_frontier_invariant (α := Int)).2
      [(fun _ _ s => .ok s, 1, Direction.Fromleft), (fun _ _ s => .ok s, 1, Direction.Fromright)]
      (sampleChain 5 0) (sampleChain 0 2) (Or.inl (List.cons_ne_nil _ _)) rfl⟩⟩

/-! ## The guards of `svdBond` -/

theorem svdBondGuards_eq {α : Type} (b : Int) (dir : Direction) (self : DMTDensityMatrix α) :
    svdBondGuards b dir self =
      if dir = Direction.Fromleft ∧ b - 1 > self.rho_.leftLim then .error .leftLim
      else if dir = Direction.Fromright ∧ b + 2 < self.rho_.rightLim then .error .rightLim
      else if self.presRange_ < 1 then .error .presRange
      else .ok () := rfl

theorem svdBond_guard_error {α : Type}
    (stage : Int → Direction → DMTDensityMatrix α → Except String (DMTDensityMatrix α))
    (b : Int) (dir : Direction) (self : DMTDensityMatrix α) (e : DMTError)
    (he : ∀ msg, e ≠ .library msg) :
    svdBond stage b dir self = .error e ↔ svdBondGuards b dir self = .error e := by
  unfold svdBond
  cases hg : svdBondGuards b dir self with
  | error e' => simp
  | ok u =>
    cases hs : stage b dir self with
    | error msg =>
      simp only [liftLibrary, reduceCtorEq, iff_false]
      intro h
      exact he msg (Except.error.inj h).symm
    | ok s1 => simp [liftLibrary]

/-- C2. Fatal preconditions of `svdBond`: for every chain state, bond `b` and direction `dir`,
`svdBond` raises one of its three precondition errors exactly when `dir = Fromleft` and
`b-1 > leftLim`, or `dir = Fromright` and `b+2 < rightLim`, or `presRange < 1`; the first
error is raised exactly under the first condition, the second exactly under the second, and
the `presRange` error exactly when `presRange < 1` and neither frontier condition holds. -/
theorem svdBond_fatal_preconditions {α : Type}
    (stage : Int → Direction → DMTDensityMatrix α → Except String (DMTDensityMatrix α))
    (b : Int) (dir : Direction) (self : DMTDensityMatrix α) :
    ((svdBond stage b dir self = .error .leftLim ∨
        svdBond stage b dir self = .error .rightLim ∨
        svdBond stage b dir self = .error .presRange) ↔
      ((dir = Direction.Fromleft ∧ b - 1 > self.rho_.leftLim) ∨
        (dir = Direction.Fromright ∧ b + 2 < self.rho_.rightLim) ∨
        self.presRange_ < 1)) ∧
    (svdBond stage b dir self = .error .leftLim ↔
      (dir = Direction.Fromleft ∧ b - 1 > self.rho_.leftLim)) ∧
    (svdBond stage b dir self = .error .rightLim ↔
      (dir = Direction.Fromright ∧ b + 2 < self.rho_.rightLim)) ∧
    (svdBond stage b dir self = .error .presRange ↔
      (self.presRange_ < 1 ∧ ¬ (dir = Direction.Fromleft ∧ b - 1 > self.rho_.leftLim) ∧
        ¬ (dir = Direction.Fromright ∧ b + 2 < self.rho_.rightLim))) := by
  rw [svdBond_guard_error stage b dir self .leftLim (by intro msg; simp),
    svdBond_guard_error stage b dir self .rightLim (by intro msg; simp),
    svdBond_guard_error stage b dir self .presRange (by intro msg; simp),
    svdBondGuards_eq]
  by_cases h1 : dir = Direction.Fromleft ∧ b - 1 > self.rho_.leftLim
  · have h2 : ¬ (dir = Direction.Fromright ∧ b + 2 < self.rho_.rightLim) := by
      rintro ⟨hd, -⟩
      rw [h1.1] at hd
      exact absurd hd (by decide)
    simp [h1, h2]
  · by_cases h2 : dir = Direction.Fromright ∧ b + 2 < self.rho_.rightLim
    · simp [h1, h2]
    · by_cases h3 : self.presRange_ < 1
      · simp [h1, h2, h3]
      · simp [h1, h2, h3]

/-! ## Loops -/

theorem forRange1_succ {σ : Type} (n : Nat) (body : Nat → σ → Except DMTError σ) (s : σ) :
    forRange1 (n + 1) body s =
      (match forRange1 n body s with
        | .error e => .error e
        | .ok s' => body (n + 1) s') := by
  unfold forRange1
  rw [List.range_succ, List.foldlM_append]
  cases h : List.foldlM (fun acc k => body (k + 1) acc) s (List.range n) with
  | error e => rfl
  | ok s' =>
    show (body (n + 1) s' >>= fun x => pure x) = body (n + 1) s'
    cases body (n + 1) s' <;> rfl

/-- Invariant rule for `forRange1`: an invariant that holds at the start and is carried by
every iteration (each of which returns) holds at the end, and the loop returns. -/
theorem forRange1_inv {σ : Type} (n : Nat) (body : Nat → σ → Except DMTError σ)
    (I : Nat → σ → Prop) (s : σ) (h0 : I 0 s)
    (hstep : ∀ k, k < n → ∀ acc, I k acc → ∃ acc', body (k + 1) acc = .ok acc' ∧ I (k + 1) acc') :
    ∃ s', forRange1 n body s = .ok s' ∧ I n s' := by
  induction n with
  | zero => exact ⟨s, rfl, h0⟩
  | succ n ih =>
    obtain ⟨s1, hs1, hI1⟩ := ih (fun k hk acc hacc => hstep k (Nat.lt_succ_of_lt hk) acc hacc)
    obtain ⟨s2, hs2, hI2⟩ := hstep n (Nat.lt_succ_self n) s1 hI1
    exact ⟨s2, by rw [forRange1_succ, hs1]; exact hs2, hI2⟩

/-! ## Vectorisation -/

theorem unflattenFst_flattenIx {d1 d2 : Nat} (i : Fin d1) (j : Fin d2) :
    unflattenFst (flattenIx i j) = i := by
  apply Fin.ext
  simp only [unflattenFst, flattenIx]
  rw [Nat.add_mul_mod_self_left]
  exact Nat.mod_eq_of_lt i.isLt

theorem unflattenSnd_flattenIx {d1 d2 : Nat} (i : Fin d1) (j : Fin d2) :
    unflattenSnd (flattenIx i j) = j := by
  apply Fin.ext
  simp only [unflattenSnd, flattenIx]
  have hpos : 0 < d1 := Nat.lt_of_le_of_lt (Nat.zero_le _) i.isLt
  rw [Nat.add_mul_div_left _ _ hpos, Nat.div_eq_of_lt i.isLt, Nat.zero_add]

theorem mulCombiner_combine {α : Type} (tags : String) (t : SiteTensor α) (ht : t.IsOper) :
    t.mulCombiner ⟨t.siteInds, tags⟩ = .ok (combineSite tags t) := by
  cases t with
  | oper s s' elt => simp [SiteTensor.mulCombiner, SiteTensor.siteInds, combineSite]
  | vect v elt => exact absurd ht (by simp [SiteTensor.IsOper])

theorem mulCombiner_split {α : Type} (tags : String) (t : SiteTensor α) (ht : t.IsOper) :
    (combineSite tags t).mulCombiner ⟨t.siteInds, tags⟩ = .ok t := by
  cases t with
  | oper s s' elt =>
    simp only [combineSite, SiteTensor.siteInds, SiteTensor.mulCombiner, dite_true]
    congr 1
    congr 1
    funext i j
    simp [unflattenFst_flattenIx, unflattenSnd_flattenIx]
  | vect v elt => exact absurd ht (by simp [SiteTensor.IsOper])

theorem vecBody_spec {α : Type} (k : Nat) (acc : DMTDensityMatrix α) (t : SiteTensor α)
    (hsite : acc.rho_.A_[k]? = some t) (ht : t.IsOper) (hk : k < acc.vecCombs.length) :
    ∃ l r, vecBody (k + 1) acc = .ok
      { acc with
        siteIndsStore_ := acc.siteIndsStore_.set k t.siteInds
        vecCombs := acc.vecCombs.set k ⟨t.siteInds, vecTags k⟩
        vecInds := acc.vecInds.set k (Combiner.cind ⟨t.siteInds, vecTags k⟩)
        rho_ := { A_ := acc.rho_.A_.set k (combineSite (vecTags k) t)
                  l_orth_lim_ := l, r_orth_lim_ := r } } := by
  have hget : (acc.vecCombs.set k ⟨t.siteInds, vecTags k⟩).getD k default
      = ⟨t.siteInds, vecTags k⟩ := by
    simp [List.getD_eq_getElem?_getD, hk]
  have hinds : acc.rho_.siteInds (k + 1) = t.siteInds := by
    simp [MPO.siteInds, hsite]
  refine ⟨if ((k + 1 : Nat) : Int) ≤ acc.rho_.l_orth_lim_ then ((k + 1 : Nat) : Int) - 1
      else acc.rho_.l_orth_lim_,
    if ((k + 1 : Nat) : Int) ≥ acc.rho_.r_orth_lim_ then ((k + 1 : Nat) : Int) + 1
      else acc.rho_.r_orth_lim_, ?_⟩
  simp only [vecBody, hinds, combiner, Nat.add_sub_cancel]
  rw [show ("Site, n=" ++ toString (k + 1)) = vecTags k from rfl, hget]
  simp only [MPO.refMulCombiner, Nat.add_sub_cancel, hsite, mulCombiner_combine _ t ht]

theorem unvecBody_spec {α : Type} (k : Nat) (acc : DMTDensityMatrix α) (t : SiteTensor α)
    (tags : String) (hsite : acc.rho_.A_[k]? = some (combineSite tags t)) (ht : t.IsOper)
    (hcomb : acc.vecCombs[k]? = some ⟨t.siteInds, tags⟩) :
    ∃ l r, unvecBody (k + 1) acc = .ok
      { acc with rho_ := { A_ := acc.rho_.A_.set k t, l_orth_lim_ := l, r_orth_lim_ := r } } := by
  have hget : acc.vecCombs.getD k default = ⟨t.siteInds, tags⟩ := by
    simp [List.getD_eq_getElem?_getD, hcomb]
  refine ⟨if ((k + 1 : Nat) : Int) ≤ acc.rho_.l_orth_lim_ then ((k + 1 : Nat) : Int) - 1
      else acc.rho_.l_orth_lim_,
    if ((k + 1 : Nat) : Int) ≥ acc.rho_.r_orth_lim_ then ((k + 1 : Nat) : Int) + 1
      else acc.rho_.r_orth_lim_, ?_⟩
  simp only [unvecBody, Nat.add_sub_cancel, hget, MPO.refMulCombiner, hsite,
    mulCombiner_split _ t ht]

theorem isOper_of_siteInds {α : Type} (t : SiteTensor α) (h : t.siteInds.length = 2) :
    t.IsOper := by
  cases t with
  | oper s s' elt => trivial
  | vect v elt => simp [SiteTensor.siteInds] at h

theorem resize_length {β : Type} [Inhabited β] (v : List β) (n : Nat) :
    (resize v n).length = n := by
  simp only [resize, List.length_append, List.length_take, List.length_replicate]
  omega

/-- What `vec()` computes on a chain whose sites are all in operator form. -/
theorem vec_spec {α : Type} (self : DMTDensityMatrix α) (hflag : self.vectorized_ = false)
    (hop : ∀ t ∈ self.rho_.A_, t.IsOper) :
    ∃ v, vec self = .ok v ∧ v.vectorized_ = true ∧
      v.rho_.A_.length = self.rho_.A_.length ∧
      v.vecCombs.length = self.rho_.A_.length ∧
      v.vecInds.length = self.rho_.A_.length ∧
      v.siteIndsStore_.length = self.rho_.A_.length ∧
      (∀ j, v.rho_.A_[j]? = (self.rho_.A_[j]?).map (combineSite (vecTags j))) ∧
      (∀ j, v.vecCombs[j]? = (self.rho_.A_[j]?).map (fun t => (⟨t.siteInds, vecTags j⟩ : Combiner))) := by
  let orig := self.rho_.A_
  let I : Nat → DMTDensityMatrix α → Prop := fun k st =>
    st.vectorized_ = true ∧ st.rho_.A_.length = orig.length ∧
    st.vecCombs.length = orig.length ∧ st.vecInds.length = orig.length ∧
    st.siteIndsStore_.length = orig.length ∧
    (∀ j, st.rho_.A_[j]? =
      if j < k then (orig[j]?).map (combineSite (vecTags j)) else orig[j]?) ∧
    (∀ j, j < k → st.vecCombs[j]? = (orig[j]?).map (fun t => (⟨t.siteInds, vecTags j⟩ : Combiner)))
  have hloop := forRange1_inv self.rho_.length vecBody I
    { self with
      siteIndsStore_ := List.replicate self.rho_.length []
      vectorized_ := true
      vecCombs := resize self.vecCombs self.rho_.length
      vecInds := resize self.vecInds self.rho_.length }
    ⟨rfl, rfl, resize_length _ _, resize_length _ _, by simp [MPO.length, orig],
      fun j => by simp, fun j hj => absurd hj (Nat.not_lt_zero j)⟩
    (by
      intro k hk acc hacc
      obtain ⟨h1, h2, h3, h4, h5, h6, h7⟩ := hacc
      have hk' : k < orig.length := hk
      have hsite : acc.rho_.A_[k]? = some (orig[k]) := by
        rw [h6 k, if_neg (Nat.lt_irrefl k), List.getElem?_eq_getElem hk']
      have ht : (orig[k]).IsOper := hop _ (List.getElem_mem hk')
      obtain ⟨l, r, hbody⟩ := vecBody_spec k acc (orig[k]) hsite ht (by rw [h3]; exact hk')
      refine ⟨_, hbody, h1, ?_, ?_, ?_, ?_, ?_, ?_⟩
      · simp [h2]
      · simp [h3]
      · simp [h4]
      · simp [h5]
      · intro j
        simp only [List.getElem?_set]
        by_cases hjk : k = j
        · subst hjk
          simp [h2, hk', List.getElem?_eq_getElem hk']
        · rw [if_neg hjk, h6 j]
          by_cases hlt : j < k
          · rw [if_pos hlt, if_pos (Nat.lt_succ_of_lt hlt)]
          · rw [if_neg hlt, if_neg (by omega)]
      · intro j hj
        simp only [List.getElem?_set]
        by_cases hjk : k = j
        · subst hjk
          simp [h3, hk', List.getElem?_eq_getElem hk']
        · rw [if_neg hjk]
          exact h7 j (by omega))
  obtain ⟨v, hv, g1, g2, g3, g4, g5, g6, g7⟩ := hloop
  refine ⟨v, ?_, g1, g2, g3, g4, g5, ?_, ?_⟩
  · simp only [vec, hflag]
    exact hv
  · intro j
    rw [g6 j]
    by_cases hj : j < self.rho_.length
    · rw [if_pos hj]
    · rw [if_neg hj]
      have : orig[j]? = none := List.getElem?_eq_none (by
        have : orig.length = self.rho_.length := rfl
        omega)
      simp [this]
  · intro j
    by_cases hj : j < self.rho_.length
    · exact g7 j hj
    · have h1 : orig[j]? = none := List.getElem?_eq_none (by
        have : orig.length = self.rho_.length := rfl
        omega)
      have h2 : v.vecCombs[j]? = none := List.getElem?_eq_none (by
        have : orig.length = self.rho_.length := rfl
        omega)
      rw [h2]
      show none = Option.map _ (orig[j]?)
      rw [h1]
      rfl

/-- What `unvec()` computes on a chain whose sites are the vector forms of `orig` and whose
stored combiners are those of `orig`. -/
theorem unvec_spec {α : Type} (v : DMTDensityMatrix α) (orig : List (SiteTensor α))
    (hflag : v.vectorized_ = true) (hop : ∀ t ∈ orig, t.IsOper)
    (hlen : v.rho_.A_.length = orig.length)
    (hsites : ∀ j, v.rho_.A_[j]? = (orig[j]?).map (combineSite (vecTags j)))
    (hcombs : ∀ j, v.vecCombs[j]? = (orig[j]?).map (fun t => (⟨t.siteInds, vecTags j⟩ : Combiner))) :
    ∃ u, unvec v = .ok u ∧ u.vectorized_ = false ∧ u.rho_.A_ = orig := by
  let I : Nat → DMTDensityMatrix α → Prop := fun k st =>
    st.vectorized_ = false ∧ st.rho_.A_.length = orig.length ∧ st.vecCombs = v.vecCombs ∧
    (∀ j, st.rho_.A_[j]? =
      if j < k then orig[j]? else (orig[j]?).map (combineSite (vecTags j)))
  have hloop := forRange1_inv v.rho_.length unvecBody I { v with vectorized_ := false }
    ⟨rfl, hlen, rfl, fun j => by simpa using hsites j⟩
    (by
      intro k hk acc hacc
      obtain ⟨h1, h2, h3, h4⟩ := hacc
      have hk' : k < orig.length := by
        have : v.rho_.length = v.rho_.A_.length := rfl
        omega
      have ht : (orig[k]).IsOper := hop _ (List.getElem_mem hk')
      have hsite : acc.rho_.A_[k]? = some (combineSite (vecTags k) (orig[k])) := by
        rw [h4 k, if_neg (Nat.lt_irrefl k), List.getElem?_eq_getElem hk']
        rfl
      have hcomb : acc.vecCombs[k]? = some ⟨(orig[k]).siteInds, vecTags k⟩ := by
        rw [h3, hcombs k, List.getElem?_eq_getElem hk']
        rfl
      obtain ⟨l, r, hbody⟩ := unvecBody_spec k acc (orig[k]) (vecTags k) hsite ht hcomb
      refine ⟨_, hbody, h1, ?_, h3, ?_⟩
      · simp [h2]
      · intro j
        simp only [List.getElem?_set]
        by_cases hjk : k = j
        · subst hjk
          simp [h2, hk', List.getElem?_eq_getElem hk']
        · rw [if_neg hjk, h4 j]
          by_cases hlt : j < k
          · rw [if_pos hlt, if_pos (Nat.lt_succ_of_lt hlt)]
          · rw [if_neg hlt, if_neg (by omega)])
  obtain ⟨u, hu, g1, g2, -, g4⟩ := hloop
  refine ⟨u, ?_, g1, ?_⟩
  · simp only [unvec, hflag]
    exact hu
  · apply List.ext_getElem?
    intro j
    rw [g4 j]
    by_cases hj : j < v.rho_.length
    · rw [if_pos hj]
    · rw [if_neg hj]
      have : orig[j]? = none := List.getElem?_eq_none (by
        have : v.rho_.length = v.rho_.A_.length := rfl
        omega)
      simp [this]

/-- C5. Vectorize/unvectorize round trip: on every chain that is not vectorized and whose site
tensors all carry two physical indices, `vec()` succeeds, `unvec()` on its result succeeds, the
`vectorized_` flag is `true` in between and `false` afterwards, and every site tensor is back
at exactly its value before `vec()`. -/
theorem vec_unvec_roundtrip {α : Type} (self : DMTDensityMatrix α)
    (hflag : self.vectorized_ = false)
    (hsites : ∀ t ∈ self.rho_.A_, t.siteInds.length = 2) :
    ∃ v u, vec self = .ok v ∧ v.vectorized_ = true ∧ unvec v = .ok u ∧
      u.vectorized_ = false ∧ u.rho_.A_ = self.rho_.A_ := by
  have hop : ∀ t ∈ self.rho_.A_, t.IsOper := fun t ht => isOper_of_siteInds t (hsites t ht)
  obtain ⟨v, hv, g1, g2, -, -, -, g6, g7⟩ := vec_spec self hflag hop
  obtain ⟨u, hu, k1, k2⟩ := unvec_spec v self.rho_.A_ g1 hop g2 g6 g7
  exact ⟨v, u, hv, g1, hu, k1, k2⟩

/-- The round trip on the two-site sample chain. -/
theorem vec_unvec_roundtrip_witness :
    (sampleChain 0 3).vectorized_ = false ∧
    (∀ t ∈ (sampleChain 0 3).rho_.A_, t.siteInds.length = 2) ∧
    ∃ v u, vec (sampleChain 0 3) = .ok v ∧ v.vectorized_ = true ∧ unvec v = .ok u ∧
      u.vectorized_ = false ∧ u.rho_.A_ = (sampleChain 0 3).rho_.A_ :=
  ⟨rfl, by simp [sampleChain, SiteTensor.siteInds],
    vec_unvec_roundtrip (sampleChain 0 3) rfl (by simp [sampleChain, SiteTensor.siteInds])⟩

/-- Partial-correctness rule for `forRange1`: a property of the state that every iteration
preserves still holds when the loop returns. -/
theorem forRange1_preserve {σ : Type} (n : Nat) (body : Nat → σ → Except DMTError σ)
    (R : σ → Prop) (hstep : ∀ i acc acc', body i acc = .ok acc' → R acc → R acc') :
    ∀ s s', R s → forRange1 n body s = .ok s' → R s' := by
  induction n with
  | zero =>
    intro s s' hR h
    have h' : Except.ok s = Except.ok s' := h
    exact Except.ok.inj h' ▸ hR
  | succ n ih =>
    intro s s' hR h
    rw [forRange1_succ] at h
    cases h1 : forRange1 n body s with
    | error e => simp [h1] at h
    | ok s1 =>
      simp only [h1] at h
      exact hstep (n + 1) s1 s' h (ih s s1 hR h1)

theorem unvecBody_stored {α : Type} (i : Nat) (acc acc' : DMTDensityMatrix α)
    (h : unvecBody i acc = .ok acc') : storedState acc' = storedState acc := by
  unfold unvecBody at h
  cases h1 : acc.rho_.refMulCombiner i (acc.vecCombs.getD (i - 1) default) with
  | error e =>
    rw [h1] at h
    cases h
  | ok rho =>
    rw [h1] at h
    cases h
    rfl

/-- C8 (amended). `unvec()` keeps the stored state: for every chain, when `unvec()` succeeds
the chain was vectorized, the `vectorized_` flag is `false` afterwards, and the stored per-site
combiners (`vecCombs`), the stored merged indices (`vecInds`) and the stored site-index sets
(`siteIndsStore_`) are exactly what they were before the call. -/
theorem unvec_keeps_stored_state {α : Type} (v u : DMTDensityMatrix α)
    (h : unvec v = .ok u) :
    v.vectorized_ = true ∧ u.vectorized_ = false ∧ u.vecCombs = v.vecCombs ∧
      u.vecInds = v.vecInds ∧ u.siteIndsStore_ = v.siteIndsStore_ := by
  unfold unvec at h
  cases hv : v.vectorized_ with
  | false => simp [hv] at h
  | true =>
    simp only [hv, Bool.not_true, Bool.false_eq_true, if_false] at h
    have key := forRange1_preserve v.rho_.length unvecBody
      (fun st => storedState st = storedState { v with vectorized_ := false })
      (fun i acc acc' hb hR => (unvecBody_stored i acc acc' hb).trans hR) _ u rfl h
    simp only [storedState, Prod.mk.injEq] at key
    exact ⟨rfl, key.1, key.2.1, key.2.2.1, key.2.2.2⟩

/-- On the vectorized two-site sample chain `unvec()` succeeds and leaves the two stored
combiners, merged indices and site-index sets in place. -/
theorem unvec_keeps_stored_state_witness :
    unvec sampleVectorized = .ok sampleUnvectorized ∧
    sampleVectorized.vectorized_ = true ∧ sampleUnvectorized.vectorized_ = false ∧
    sampleUnvectorized.vecCombs = sampleVectorized.vecCombs ∧
    sampleUnvectorized.vecInds = sampleVectorized.vecInds ∧
    sampleUnvectorized.siteIndsStore_ = sampleVectorized.siteIndsStore_ :=
  ⟨rfl, unvec_keeps_stored_state sampleVectorized sampleUnvectorized rfl⟩

/-- C8 as stated fails: `vec()` on the two-site sample chain stores two combiners, two merged
indices and two site-index sets, and the successful `unvec()` that follows returns a state in
which all three are still stored, none of them empty. -/
theorem unvec_clears_stored_state_counterexample :
    vec (sampleChain 0 3) = .ok sampleVectorized ∧
    sampleVectorized.vectorized_ = true ∧
    unvec sampleVectorized = .ok sampleUnvectorized ∧
    sampleUnvectorized.vecCombs =
      [⟨[⟨"Site,n=1", 0, 2⟩, ⟨"Site,n=1", 1, 2⟩], "Site, n=1"⟩,
       ⟨[⟨"Site,n=2", 0, 2⟩, ⟨"Site,n=2", 1, 2⟩], "Site, n=2"⟩] ∧
    sampleUnvectorized.vecInds = [⟨"Site, n=1", 0, 4⟩, ⟨"Site, n=2", 0, 4⟩] ∧
    sampleUnvectorized.siteIndsStore_ =
      [[⟨"Site,n=1", 0, 2⟩, ⟨"Site,n=1", 1, 2⟩], [⟨"Site,n=2", 0, 2⟩, ⟨"Site,n=2", 1, 2⟩]] ∧
    ¬ (sampleUnvectorized.vecCombs = [] ∧ sampleUnvectorized.vecInds = [] ∧
        sampleUnvectorized.siteIndsStore_ = []) :=
  ⟨rfl, rfl, rfl, rfl, rfl, rfl, fun h => absurd h.1 (by simp [sampleUnvectorized, sampleVectorized])⟩

/-! ## `reduceDimTop` -/

theorem totalDim_cons {Q : Type} (b : Q × Int) (bs : List (Q × Int)) :
    totalDim (b :: bs) = b.2 + totalDim bs := by
  simp [totalDim]

theorem totalDim_nonneg {Q : Type} (bs : List (Q × Int)) (hpos : ∀ b ∈ bs, 0 < b.2) :
    0 ≤ totalDim bs := by
  induction bs with
  | nil => simp [totalDim]
  | cons b rest ih =>
    rw [totalDim_cons]
    have h1 := hpos b (List.mem_cons_self _ _)
    have h2 := ih (fun x hx => hpos x (List.mem_cons_of_mem _ hx))
    omega

/-- Once `cumulDim` is zero the loop appends every remaining block unchanged. -/
theorem foldl_reduceDimTopStep_zero {Q : Type} (bs : List (Q × Int)) :
    ∀ acc : List (Q × Int), (∀ b ∈ bs, 0 < b.2) →
      bs.foldl reduceDimTopStep (0, acc) = (0, acc ++ bs) := by
  induction bs with
  | nil => intro acc _; simp
  | cons b rest ih =>
    intro acc hpos
    have hb := hpos b (List.mem_cons_self _ _)
    have hstep : reduceDimTopStep (0, acc) b = (0, acc ++ [b]) := by
      simp [reduceDimTopStep, hb]
    rw [List.foldl_cons, hstep, ih _ (fun x hx => hpos x (List.mem_cons_of_mem _ hx))]
    simp

/-- The block loop of `reduceDimTop` computes `dropFront`. -/
theorem foldl_reduceDimTopStep {Q : Type} (bs : List (Q × Int)) :
    ∀ (c : Int) (acc : List (Q × Int)), (∀ b ∈ bs, 0 < b.2) →
      (bs.foldl reduceDimTopStep (c, acc)).2 = acc ++ dropFront c bs := by
  induction bs with
  | nil => intro c acc _; simp [dropFront]
  | cons b rest ih =>
    intro c acc hpos
    obtain ⟨q, s⟩ := b
    have hrest : ∀ x ∈ rest, 0 < x.2 := fun x hx => hpos x (List.mem_cons_of_mem _ hx)
    by_cases hd : s - c > 0
    · have hstep : reduceDimTopStep (c, acc) (q, s) = (0, acc ++ [(q, s - c)]) := by
        simp [reduceDimTopStep, hd]
      rw [List.foldl_cons, hstep, foldl_reduceDimTopStep_zero rest _ hrest]
      simp [dropFront, hd]
    · have hstep : reduceDimTopStep (c, acc) (q, s) = (c - s, acc) := by
        simp [reduceDimTopStep, hd]
      rw [List.foldl_cons, hstep, ih _ _ hrest]
      simp [dropFront, hd]

theorem dropFront_totalDim {Q : Type} (bs : List (Q × Int)) :
    ∀ c : Int, (∀ b ∈ bs, 0 < b.2) → 0 ≤ c → c ≤ totalDim bs →
      totalDim (dropFront c bs) = totalDim bs - c := by
  induction bs with
  | nil =>
    intro c _ h0 h1
    simp only [totalDim, List.map_nil, List.sum_nil] at h1
    simp only [dropFront, totalDim, List.map_nil, List.sum_nil]
    omega
  | cons b rest ih =>
    intro c hpos h0 h1
    obtain ⟨q, s⟩ := b
    rw [totalDim_cons] at h1
    by_cases hd : s - c > 0
    · simp only [dropFront, hd, if_true, totalDim_cons]
      omega
    · simp only [dropFront, hd, if_false, totalDim_cons]
      rw [ih (c - s) (fun x hx => hpos x (List.mem_cons_of_mem _ hx)) (by omega) (by omega)]
      omega

theorem dropFront_pos {Q : Type} (bs : List (Q × Int)) :
    ∀ c : Int, (∀ b ∈ bs, 0 < b.2) → ∀ b ∈ dropFront c bs, 0 < b.2 := by
  induction bs with
  | nil => intro c _ b hb; simp [dropFront] at hb
  | cons x rest ih =>
    intro c hpos b hb
    obtain ⟨q, s⟩ := x
    have hrest : ∀ y ∈ rest, 0 < y.2 := fun y hy => hpos y (List.mem_cons_of_mem _ hy)
    by_cases hd : s - c > 0
    · simp only [dropFront, hd, if_true, List.mem_cons] at hb
      rcases hb with hb | hb
      · rw [hb]; exact hd
      · exact hrest b hb
    · simp only [dropFront, hd, if_false] at hb
      exact ih (c - s) hrest b hb

/-- Shape of `dropFront`: nothing, or block `k` shortened by what is left of `c` followed by
all the blocks after it. -/
theorem dropFront_shape {Q : Type} (bs : List (Q × Int)) :
    ∀ c : Int, 0 ≤ c →
      dropFront c bs = [] ∨
      ∃ (k : Nat) (q : Q) (s : Int), bs[k]? = some (q, s) ∧
        0 ≤ c - totalDim (bs.take k) ∧ c - totalDim (bs.take k) < s ∧
        dropFront c bs = (q, s - (c - totalDim (bs.take k))) :: bs.drop (k + 1) := by
  induction bs with
  | nil => intro c _; exact Or.inl rfl
  | cons x rest ih =>
    intro c h0
    obtain ⟨q, s⟩ := x
    by_cases hd : s - c > 0
    · refine Or.inr ⟨0, q, s, by simp, ?_, ?_, ?_⟩
      · simpa [totalDim] using h0
      · simp only [List.take_zero, totalDim, List.map_nil, List.sum_nil]; omega
      · simp [dropFront, hd, totalDim]
    · rcases ih (c - s) (by omega) with h | ⟨k, q', s', h1, h2, h3, h4⟩
      · exact Or.inl (by simp [dropFront, hd, h])
      · refine Or.inr ⟨k + 1, q', s', by simpa using h1, ?_, ?_, ?_⟩
        · rw [List.take_succ_cons, totalDim_cons]; simp only; omega
        · rw [List.take_succ_cons, totalDim_cons]; simp only; omega
        · rw [List.take_succ_cons, totalDim_cons]
          simp only [dropFront, hd, if_false, h4, List.drop_succ_cons]
          congr 2
          omega

theorem basisLabels_cons {Q : Type} (b : Q × Int) (bs : List (Q × Int)) :
    basisLabels (b :: bs) = List.replicate b.2.toNat b.1 ++ basisLabels bs := by
  simp [basisLabels]

theorem dropFront_basisLabels {Q : Type} (bs : List (Q × Int)) :
    ∀ c : Int, (∀ b ∈ bs, 0 < b.2) → 0 ≤ c →
      basisLabels (dropFront c bs) = (basisLabels bs).drop c.toNat := by
  induction bs with
  | nil => intro c _ _; simp [dropFront, basisLabels]
  | cons x rest ih =>
    intro c hpos h0
    obtain ⟨q, s⟩ := x
    have hs : 0 < s := hpos (q, s) (List.mem_cons_self _ _)
    have hrest : ∀ y ∈ rest, 0 < y.2 := fun y hy => hpos y (List.mem_cons_of_mem _ hy)
    by_cases hd : s - c > 0
    · simp only [dropFront, hd, if_true, basisLabels_cons]
      rw [List.drop_append_of_le_length (by simp; omega), List.drop_replicate]
      congr 2
      omega
    · simp only [dropFront, hd, if_false, basisLabels_cons]
      rw [ih (c - s) hrest (by omega)]
      have hc : c.toNat = (List.replicate s.toNat q).length + (c - s).toNat := by
        simp only [List.length_replicate]; omega
      rw [hc, List.drop_append]

theorem reduceDimTop_error_iff {Q : Type} (ind : Index Q) (r : Int) (e : DMTError) :
    reduceDimTop ind r = .error e ↔ (r > ind.dim ∧ e = .reduceBelowZero) := by
  unfold reduceDimTop
  by_cases hr : r > ind.dim
  · simp only [hr, if_true, Except.error.injEq, true_and]
    exact eq_comm
  · by_cases hq : hasQNs ind = true
    · simp [hr, hq]
    · simp [hr, hq]

/-- C7. `reduceDimTop` drops the leading basis elements.  It raises its fatal error exactly
when `reduceDim` exceeds the dimension of the index, and raises nothing else.  On a well-formed
index (plain, or with quantum-number blocks of positive sizes) and `0 ≤ reduceDim ≤ dim` it
returns an index with the same tags, of dimension `dim - reduceDim`, again well formed (no
block of size `≤ 0`), whose basis elements carry the quantum numbers of the original basis
elements with the first `reduceDim` removed, and whose block list is empty or is a trailing run
of the original blocks in their order with their quantum numbers, the first of them shortened
by what remains of `reduceDim` after the blocks dropped before it. -/
theorem reduceDimTop_drops_leading {Q : Type} (ind : Index Q) (r : Int) :
    ((∃ e, reduceDimTop ind r = .error e) ↔ r > ind.dim) ∧
    (∀ e, reduceDimTop ind r = .error e → e = .reduceBelowZero) ∧
    (ind.WellFormed → 0 ≤ r → r ≤ ind.dim →
      ∃ res, reduceDimTop ind r = .ok res ∧ res.tags = ind.tags ∧
        res.dim = ind.dim - r ∧ res.WellFormed ∧
        basisLabels res.qns = (basisLabels ind.qns).drop r.toNat ∧
        (res.qns = [] ∨
          ∃ (k : Nat) (q : Q) (s : Int), ind.qns[k]? = some (q, s) ∧
            0 ≤ r - totalDim (ind.qns.take k) ∧ r - totalDim (ind.qns.take k) < s ∧
            res.qns = (q, s - (r - totalDim (ind.qns.take k))) :: ind.qns.drop (k + 1))) := by
  refine ⟨?_, ?_, ?_⟩
  · constructor
    · rintro ⟨e, he⟩
      exact ((reduceDimTop_error_iff ind r e).1 he).1
    · intro hr
      exact ⟨_, (reduceDimTop_error_iff ind r _).2 ⟨hr, rfl⟩⟩
  · intro e he
    exact ((reduceDimTop_error_iff ind r e).1 he).2
  · rintro ⟨hdim, hpos, htot⟩ h0 hle
    have hr : ¬ r > ind.dim := by omega
    by_cases hq : ind.qns = []
    · refine ⟨Index.ofDim (ind.dim - r) ind.tags, ?_, rfl, rfl, ?_, ?_, Or.inl rfl⟩
      · simp [reduceDimTop, hr, hasQNs, hq]
      · refine ⟨?_, ?_, ?_⟩
        · show 0 ≤ ind.dim - r
          omega
        · intro b hb
          simp [Index.ofDim] at hb
        · intro hne
          exact absurd rfl hne
      · simp [Index.ofDim, hq, basisLabels]
    · have hloop := foldl_reduceDimTopStep ind.qns r [] hpos
      rw [List.nil_append] at hloop
      have hdimq := htot hq
      have htotal := dropFront_totalDim ind.qns r hpos h0 (by omega)
      refine ⟨Index.ofQNs (dropFront r ind.qns) ind.tags, ?_, rfl, ?_, ?_, ?_, ?_⟩
      · have hq' : hasQNs ind = true := by
          simp [hasQNs, hq]
        simp only [reduceDimTop, hr, if_false, hq', if_true, hloop]
      · show totalDim (dropFront r ind.qns) = ind.dim - r
        omega
      · refine ⟨?_, dropFront_pos ind.qns r hpos, fun _ => rfl⟩
        show 0 ≤ totalDim (dropFront r ind.qns)
        omega
      · exact dropFront_basisLabels ind.qns r hpos h0
      · exact dropFront_shape ind.qns r h0

theorem sampleIndex_wellFormed : sampleIndex.WellFormed := by
  refine ⟨by decide, ?_, fun _ => by decide⟩
  intro b hb
  simp only [sampleIndex, List.mem_cons, List.mem_singleton, List.not_mem_nil, or_false] at hb
  rcases hb with hb | hb <;> rw [hb] <;> decide

/-- Removing 3 basis elements from an index with blocks of sizes 2 and 3: the first block goes,
the second is shortened to size 2. -/
theorem reduceDimTop_drops_leading_witness :
    reduceDimTop sampleIndex 3 = .ok { tags := "Link,qr", dim := 2, qns := [(1, 2)] } ∧
    sampleIndex.WellFormed ∧ (0 : Int) ≤ 3 ∧ (3 : Int) ≤ sampleIndex.dim ∧
    ∃ res, reduceDimTop sampleIndex 3 = .ok res ∧ res.tags = sampleIndex.tags ∧
      res.dim = sampleIndex.dim - 3 ∧ res.WellFormed ∧
      basisLabels res.qns = (basisLabels sampleIndex.qns).drop (3 : Int).toNat ∧
      (res.qns = [] ∨
        ∃ (k : Nat) (q : Int) (s : Int), sampleIndex.qns[k]? = some (q, s) ∧
          0 ≤ 3 - totalDim (sampleIndex.qns.take k) ∧ 3 - totalDim (sampleIndex.qns.take k) < s ∧
          res.qns = (q, s - (3 - totalDim (sampleIndex.qns.take k))) ::
            sampleIndex.qns.drop (k + 1)) :=
  ⟨rfl, sampleIndex_wellFormed, by decide, by decide,
    (reduceDimTop_drops_leading sampleIndex 3).2.2 sampleIndex_wellFormed (by decide)
      (by decide)⟩

/-! ## The Taylor-series gate -/

theorem hornerTail_zero_right (K : Type) {A : Type} [Field K] [CharZero K] [Ring A] [Algebra K A]
    (x : A) (m : Nat) : hornerTail K x m 0 = 1 := by
  have hm : ((m.factorial : Nat) : K) ≠ 0 := Nat.cast_ne_zero.mpr (Nat.factorial_ne_zero m)
  simp only [hornerTail, Nat.zero_add, Finset.range_one, Finset.sum_singleton, Nat.add_zero,
    pow_zero]
  rw [div_self hm, one_smul]

theorem hornerTail_zero_left (K : Type) {A : Type} [Field K] [Ring A] [Algebra K A]
    (x : A) (j : Nat) : hornerTail K x 0 j = taylorPoly K x j := by
  simp only [hornerTail, taylorPoly]
  apply Finset.sum_congr rfl
  intro k _
  rw [Nat.factorial_zero, Nat.cast_one, Nat.zero_add, one_div]

/-- One Horner step: `unit + (tail * x) / (m+1)` is the next tail. -/
theorem hornerTail_step (K : Type) {A : Type} [Field K] [CharZero K] [Ring A] [Algebra K A]
    (x : A) (m j : Nat) :
    (1 : A) + (((m + 1 : Nat) : K))⁻¹ • (hornerTail K x (m + 1) j * x)
      = hornerTail K x m (j + 1) := by
  have hm : ((m.factorial : Nat) : K) ≠ 0 := Nat.cast_ne_zero.mpr (Nat.factorial_ne_zero m)
  have hm1 : (((m + 1 : Nat)) : K) ≠ 0 := Nat.cast_ne_zero.mpr (Nat.succ_ne_zero m)
  have hhead : hornerTail K x m (j + 1)
      = (∑ k ∈ Finset.range (j + 1),
          (((m.factorial : K)) / ((m + (k + 1)).factorial : K)) • x ^ (k + 1)) + 1 := by
    simp only [hornerTail]
    rw [Finset.sum_range_succ']
    simp only [Nat.add_zero, pow_zero]
    rw [div_self hm, one_smul]
  rw [hhead, add_comm]
  congr 1
  simp only [hornerTail]
  rw [Finset.sum_mul, Finset.smul_sum]
  apply Finset.sum_congr rfl
  intro k _
  rw [smul_mul_assoc, ← pow_succ, smul_smul]
  congr 1
  have hfac : ((m + 1).factorial : K) = ((m + 1 : Nat) : K) * (m.factorial : K) := by
    rw [Nat.factorial_succ, Nat.cast_mul]
  have hidx : m + 1 + k = m + (k + 1) := by omega
  rw [hfac, hidx, ← mul_div_assoc, ← mul_assoc, inv_mul_cancel₀ hm1, one_mul]

theorem taylorLoop_hornerTail (K : Type) {A : Type} [Field K] [CharZero K] [Ring A]
    [Algebra K A] (x : A) :
    ∀ (m j : Nat) (g : A),
      (taylorLoop K 1 x (m + 1) (hornerTail K x (m + 1) j * x, g)).2
        = taylorPoly K x (j + m + 1) := by
  intro m
  induction m with
  | zero =>
    intro j g
    simp only [taylorLoop]
    rw [hornerTail_step K x 0 j, hornerTail_zero_left]
  | succ m ih =>
    intro j g
    rw [taylorLoop]
    simp only
    rw [hornerTail_step K x (m + 1) j, ih (j + 1)]
    congr 1
    omega

theorem taylorLoop_hundred (K : Type) {A : Type} [Field K] [CharZero K] [Ring A]
    [Algebra K A] (x g : A) :
    (taylorLoop K 1 x 100 (x, g)).2 = taylorPoly K x 100 := by
  have h := taylorLoop_hornerTail K x 99 0 g
  rw [hornerTail_zero_right, one_mul] at h
  exact h

/-- C6. Taylor-series gate: for every generator `h` of an algebra `A` over a field `K` of
characteristic zero, with `unit` the identity of `A`, every time step `tau` and imaginary unit
`Complex_i`, `VecMPOBondGate` returns, bound to the sites `(min i1 i2, max i1 i2)`, the
degree-100 Taylor polynomial `sum_{k=0}^{100} x^k / k!`, where `x = -tau*h` for type `tImag`
and `x = -i*tau*h` for type `tReal`. -/
theorem VecMPOBondGate_taylor (K : Type) {A : Type} [Field K] [CharZero K] [Ring A]
    [Algebra K A] (Complex_i tau : K) (i1 i2 : Int) (h : A) :
    VecMPOBondGate Complex_i (1 : A) i1 i2 BondGateType.tImag tau h
      = .ok (min i1 i2, max i1 i2,
          ∑ k ∈ Finset.range 101, ((k.factorial : K))⁻¹ • ((-tau) • h) ^ k) ∧
    VecMPOBondGate Complex_i (1 : A) i1 i2 BondGateType.tReal tau h
      = .ok (min i1 i2, max i1 i2,
          ∑ k ∈ Finset.range 101, ((k.factorial : K))⁻¹ • ((-(Complex_i * tau)) • h) ^ k) := by
  have hsites : (if i1 > i2 then (i2, i1) else (i1, i2)) = (min i1 i2, max i1 i2) := by
    by_cases h12 : i1 > i2
    · rw [if_pos h12, min_eq_right (le_of_lt h12), max_eq_left (le_of_lt h12)]
    · rw [if_neg h12, min_eq_left (not_lt.mp h12), max_eq_right (not_lt.mp h12)]
  have hx : Complex_i • ((-tau) • h) = (-(Complex_i * tau)) • h := by
    rw [smul_smul, mul_neg]
  constructor
  · have hloop := taylorLoop_hundred K ((-tau) • h) (0 : A)
    simp only [VecMPOBondGate, hsites]
    rw [if_neg (by decide), if_neg (by decide), hloop]
    rfl
  · have hloop := taylorLoop_hundred K ((-(Complex_i * tau)) • h) (0 : A)
    simp only [VecMPOBondGate, hsites]
    rw [if_neg (by decide), if_pos trivial, hx, hloop]
    rfl

/-- The gate for the generator `h = [[0, 1], [1, 0]]` over the complex numbers with
`tau = 1/10`, on the sites given as `(2, 1)`. -/
theorem VecMPOBondGate_taylor_witness :
    VecMPOBondGate Complex.I (1 : Matrix (Fin 2) (Fin 2) ℂ) 2 1 BondGateType.tImag (1 / 10)
        (Matrix.of ![![0, 1], ![1, 0]])
      = .ok (min 2 1, max 2 1,
          ∑ k ∈ Finset.range 101, ((k.factorial : ℂ))⁻¹ •
            ((-(1 / 10 : ℂ)) • (Matrix.of ![![0, 1], ![1, 0]] : Matrix (Fin 2) (Fin 2) ℂ)) ^ k) ∧
    VecMPOBondGate Complex.I (1 : Matrix (Fin 2) (Fin 2) ℂ) 2 1 BondGateType.tReal (1 / 10)
        (Matrix.of ![![0, 1], ![1, 0]])
      = .ok (min 2 1, max 2 1,
          ∑ k ∈ Finset.range 101, ((k.factorial : ℂ))⁻¹ •
            ((-(Complex.I * (1 / 10 : ℂ))) •
              (Matrix.of ![![0, 1], ![1, 0]] : Matrix (Fin 2) (Fin 2) ℂ)) ^ k) :=
  VecMPOBondGate_taylor ℂ Complex.I (1 / 10) 2 1 (Matrix.of ![![0, 1], ![1, 0]])

/-! ## The loops of the truncation branch -/

/-- Invariant rule for `forUpTo`: `I k` holds after `k` iterations. -/
theorem forUpTo_inv {σ : Type} (lo hi : Int) (body : Int → σ → σ) (I : Nat → σ → Prop) (s : σ)
    (h0 : I 0 s)
    (hstep : ∀ k : Nat, k < (hi + 1 - lo).toNat → ∀ acc, I k acc →
      I (k + 1) (body (lo + (k : Int)) acc)) :
    I (hi + 1 - lo).toNat (forUpTo lo hi body s) := by
  unfold forUpTo
  generalize (hi + 1 - lo).toNat = n at hstep ⊢
  induction n with
  | zero => exact h0
  | succ n ih =>
    rw [List.range_succ, List.foldl_append]
    exact hstep n (Nat.lt_succ_self n) _
      (ih (fun k hk acc hacc => hstep k (Nat.lt_succ_of_lt hk) acc hacc))

/-- The inner write-back loop on row `i`. -/
theorem writeBack_row {K : Type} [Zero K] [DecidableEq K] (sdimL sdimR dimR i : Int)
    (subD acc0 : Tensor2 K) (a c : Int) :
    forUpTo (sdimR + 1) dimR (fun j D =>
        let el := D i j
        if el ≠ 0 then D.set i j (subD (i - sdimL) (j - sdimR)) else D) acc0 a c
      = if a = i ∧ sdimR + 1 ≤ c ∧ c ≤ dimR ∧ acc0 i c ≠ 0 then subD (i - sdimL) (c - sdimR)
        else acc0 a c := by
  have key := forUpTo_inv (sdimR + 1) dimR (fun j (D : Tensor2 K) =>
        let el := D i j
        if el ≠ 0 then D.set i j (subD (i - sdimL) (j - sdimR)) else D)
    (fun k acc => ∀ a c, acc a c =
      if a = i ∧ sdimR + 1 ≤ c ∧ c < sdimR + 1 + (k : Int) ∧ acc0 i c ≠ 0
      then subD (i - sdimL) (c - sdimR) else acc0 a c) acc0
    (by
      intro a c
      rw [if_neg]
      rintro ⟨-, h1, h2, -⟩
      omega)
    (by
      intro k _ acc hacc a c
      have hcur : acc i (sdimR + 1 + (k : Int)) = acc0 i (sdimR + 1 + (k : Int)) := by
        rw [hacc, if_neg]
        rintro ⟨-, -, h2, -⟩
        omega
      simp only [hcur]
      by_cases hnz : acc0 i (sdimR + 1 + (k : Int)) ≠ 0
      · rw [if_pos hnz]
        simp only [Tensor2.set]
        by_cases hac : a = i ∧ c = sdimR + 1 + (k : Int)
        · rw [if_pos hac, if_pos]
          · rw [hac.2]
          · refine ⟨hac.1, by omega, by omega, ?_⟩
            rw [hac.2]
            exact hnz
        · rw [if_neg hac, hacc a c]
          apply if_congr _ rfl rfl
          constructor
          · rintro ⟨h1, h2, h3, h4⟩
            exact ⟨h1, h2, by omega, h4⟩
          · rintro ⟨h1, h2, h3, h4⟩
            refine ⟨h1, h2, ?_, h4⟩
            have : c ≠ sdimR + 1 + (k : Int) := fun hc => hac ⟨h1, hc⟩
            push_cast at h3
            omega
      · rw [if_neg hnz, hacc a c]
        apply if_congr _ rfl rfl
        constructor
        · rintro ⟨h1, h2, h3, h4⟩
          exact ⟨h1, h2, by omega, h4⟩
        · rintro ⟨h1, h2, h3, h4⟩
          refine ⟨h1, h2, ?_, h4⟩
          have : c ≠ sdimR + 1 + (k : Int) := by
            intro hc
            rw [hc] at h4
            exact hnz h4
          push_cast at h3
          omega)
  rw [key a c]
  apply if_congr _ rfl rfl
  constructor
  · rintro ⟨h1, h2, h3, h4⟩
    exact ⟨h1, h2, by omega, h4⟩
  · rintro ⟨h1, h2, h3, h4⟩
    exact ⟨h1, h2, by omega, h4⟩

/-- What the write-back loops compute: inside the block the entries of `D` of non-zero
magnitude are replaced by the entries of `subD` at the shifted position, every other entry
of `D` is left as it is. -/
theorem writeBack_apply {K : Type} [Zero K] [DecidableEq K] (sdimL sdimR dimL dimR : Int)
    (D subD : Tensor2 K) (a c : Int) :
    writeBack sdimL sdimR dimL dimR D subD a c
      = if sdimL + 1 ≤ a ∧ a ≤ dimL ∧ sdimR + 1 ≤ c ∧ c ≤ dimR ∧ D a c ≠ 0
        then subD (a - sdimL) (c - sdimR) else D a c := by
  have key := forUpTo_inv (sdimL + 1) dimL (fun i (D : Tensor2 K) =>
      forUpTo (sdimR + 1) dimR (fun j D =>
        let el := D i j
        if el ≠ 0 then D.set i j (subD (i - sdimL) (j - sdimR)) else D) D)
    (fun k acc => ∀ a c, acc a c =
      if sdimL + 1 ≤ a ∧ a < sdimL + 1 + (k : Int) ∧ sdimR + 1 ≤ c ∧ c ≤ dimR ∧ D a c ≠ 0
      then subD (a - sdimL) (c - sdimR) else D a c) D
    (by
      intro a c
      rw [if_neg]
      rintro ⟨h1, h2, -⟩
      omega)
    (by
      intro k _ acc hacc a c
      have hrow : ∀ c', acc (sdimL + 1 + (k : Int)) c' = D (sdimL + 1 + (k : Int)) c' := by
        intro c'
        rw [hacc, if_neg]
        rintro ⟨-, h2, -⟩
        omega
      beta_reduce
      rw [writeBack_row, hrow c]
      by_cases hai : a = sdimL + 1 + (k : Int)
      · subst hai
        apply if_congr _ rfl (hrow c)
        constructor
        · rintro ⟨-, h2, h3, h4⟩
          exact ⟨by omega, by omega, h2, h3, h4⟩
        · rintro ⟨-, -, h3, h4, h5⟩
          exact ⟨rfl, h3, h4, h5⟩
      · rw [if_neg (fun h => hai h.1), hacc a c]
        apply if_congr _ rfl rfl
        constructor
        · rintro ⟨h1, h2, h3⟩
          exact ⟨h1, by omega, h3⟩
        · rintro ⟨h1, h2, h3⟩
          refine ⟨h1, ?_, h3⟩
          push_cast at h2
          omega)
  unfold writeBack
  rw [key a c]
  apply if_congr _ rfl rfl
  constructor
  · rintro ⟨h1, h2, h3⟩
    exact ⟨h1, by omega, h3⟩
  · rintro ⟨h1, h2, h3⟩
    exact ⟨h1, by omega, h3⟩

/-- The inner copy loop on row `i`. -/
theorem copyOut_row {K : Type} [Zero K] [DecidableEq K] (sdimL sdimR dimR i : Int)
    (D acc0 : Tensor2 K) (a c : Int) :
    forUpTo (sdimR + 1) dimR (fun j (subD : Tensor2 K) =>
        let el := D i j
        if el ≠ 0 then subD.set (i - sdimL) (j - sdimR) el else subD) acc0 a c
      = if a = i - sdimL ∧ 1 ≤ c ∧ c + sdimR ≤ dimR ∧ D i (c + sdimR) ≠ 0
        then D i (c + sdimR) else acc0 a c := by
  have key := forUpTo_inv (sdimR + 1) dimR (fun j (subD : Tensor2 K) =>
        let el := D i j
        if el ≠ 0 then subD.set (i - sdimL) (j - sdimR) el else subD)
    (fun k acc => ∀ a c, acc a c =
      if a = i - sdimL ∧ 1 ≤ c ∧ c < 1 + (k : Int) ∧ D i (c + sdimR) ≠ 0
      then D i (c + sdimR) else acc0 a c) acc0
    (by
      intro a c
      rw [if_neg]
      rintro ⟨-, h1, h2, -⟩
      omega)
    (by
      intro k _ acc hacc a c
      simp only
      by_cases hnz : D i (sdimR + 1 + (k : Int)) ≠ 0
      · rw [if_pos hnz]
        simp only [Tensor2.set]
        by_cases hac : a = i - sdimL ∧ c = sdimR + 1 + (k : Int) - sdimR
        · have hc : c + sdimR = sdimR + 1 + (k : Int) := by omega
          rw [if_pos hac, if_pos]
          · rw [hc]
          · refine ⟨hac.1, by omega, by omega, ?_⟩
            rw [hc]
            exact hnz
        · rw [if_neg hac, hacc a c]
          apply if_congr _ rfl rfl
          constructor
          · rintro ⟨h1, h2, h3, h4⟩
            exact ⟨h1, h2, by omega, h4⟩
          · rintro ⟨h1, h2, h3, h4⟩
            refine ⟨h1, h2, ?_, h4⟩
            have : c ≠ sdimR + 1 + (k : Int) - sdimR := fun hc => hac ⟨h1, hc⟩
            push_cast at h3
            omega
      · rw [if_neg hnz, hacc a c]
        apply if_congr _ rfl rfl
        constructor
        · rintro ⟨h1, h2, h3, h4⟩
          exact ⟨h1, h2, by omega, h4⟩
        · rintro ⟨h1, h2, h3, h4⟩
          refine ⟨h1, h2, ?_, h4⟩
          have : c + sdimR ≠ sdimR + 1 + (k : Int) := by
            intro hc
            rw [hc] at h4
            exact hnz h4
          push_cast at h3
          omega)
  rw [key a c]
  apply if_congr _ rfl rfl
  constructor
  · rintro ⟨h1, h2, h3, h4⟩
    exact ⟨h1, h2, by omega, h4⟩
  · rintro ⟨h1, h2, h3, h4⟩
    exact ⟨h1, h2, by omega, h4⟩

/-- What the copy loops compute: `subD` is the block `i > sdimL`, `j > sdimR` of `D` shifted
to start at `(1, 1)`, and zero elsewhere. -/
theorem copyOut_apply {K : Type} [Zero K] [DecidableEq K] (sdimL sdimR dimL dimR : Int)
    (D : Tensor2 K) (a c : Int) :
    copyOut sdimL sdimR dimL dimR D a c
      = if 1 ≤ a ∧ a + sdimL ≤ dimL ∧ 1 ≤ c ∧ c + sdimR ≤ dimR
        then D (a + sdimL) (c + sdimR) else 0 := by
  have key := forUpTo_inv (sdimL + 1) dimL (fun i (subD : Tensor2 K) =>
      forUpTo (sdimR + 1) dimR (fun j (subD : Tensor2 K) =>
        let el := D i j
        if el ≠ 0 then subD.set (i - sdimL) (j - sdimR) el else subD) subD)
    (fun k acc => ∀ a c, acc a c =
      if 1 ≤ a ∧ a < 1 + (k : Int) ∧ 1 ≤ c ∧ c + sdimR ≤ dimR
      then D (a + sdimL) (c + sdimR) else 0) Tensor2.zero
    (by
      intro a c
      rw [if_neg]
      · rfl
      · rintro ⟨h1, h2, -⟩
        omega)
    (by
      intro k _ acc hacc a c
      beta_reduce
      rw [copyOut_row, hacc a c]
      by_cases hai : a = sdimL + 1 + (k : Int) - sdimL
      · have ha : a + sdimL = sdimL + 1 + (k : Int) := by omega
        by_cases hc : 1 ≤ c ∧ c + sdimR ≤ dimR
        · by_cases hnz : D (sdimL + 1 + (k : Int)) (c + sdimR) ≠ 0
          · rw [if_pos ⟨hai, hc.1, hc.2, hnz⟩, if_pos ⟨by omega, by omega, hc.1, hc.2⟩, ha]
          · rw [if_neg (fun h => hnz h.2.2.2), if_neg (by rintro ⟨-, h2, -⟩; omega),
              if_pos ⟨by omega, by omega, hc.1, hc.2⟩, ha]
            exact (not_not.mp hnz).symm
        · rw [if_neg (fun h => hc ⟨h.2.1, h.2.2.1⟩), if_neg (fun h => hc ⟨h.2.2.1, h.2.2.2⟩),
            if_neg (fun h => hc ⟨h.2.2.1, h.2.2.2⟩)]
      · rw [if_neg (fun h => hai h.1)]
        apply if_congr _ rfl rfl
        constructor
        · rintro ⟨h1, h2, h3⟩
          exact ⟨h1, by omega, h3⟩
        · rintro ⟨h1, h2, h3⟩
          refine ⟨h1, ?_, h3⟩
          push_cast at h2
          omega)
  unfold copyOut
  rw [key a c]
  apply if_congr _ rfl rfl
  constructor
  · rintro ⟨h1, h2, h3⟩
    exact ⟨h1, by omega, h3⟩
  · rintro ⟨h1, h2, h3⟩
    exact ⟨h1, by omega, h3⟩

/-! ## The residual step of the truncation branch -/

theorem reduceDimTop_ok {Q : Type} (ind : Index Q) (r : Int) (h : r ≤ ind.dim) :
    ∃ res, reduceDimTop ind r = .ok res := by
  cases hres : reduceDimTop ind r with
  | error e =>
    have := ((reduceDimTop_error_iff ind r e).1 hres).1
    omega
  | ok res => exact ⟨res, rfl⟩

/-- The residual step completes as soon as the preserved dimensions fit into the link
dimensions and the truncation of `subD` returns. -/
theorem svdBondResidual_ok {K Q : Type} [Field K] [DecidableEq K]
    (svd denmatDecomp : Int → Tensor2 K → Except String (Tensor2 K))
    (args : TruncArgs) (qrLinkL qrLinkR : Index Q) (sdimL sdimR : Int) (D T : Tensor2 K)
    (hL : sdimL ≤ qrLinkL.dim) (hR : sdimR ≤ qrLinkR.dim)
    (hT : truncateResidual svd denmatDecomp args sdimL sdimR
      (copyOut sdimL sdimR qrLinkL.dim qrLinkR.dim (subtractConnected D)) = .ok T) :
    svdBondResidual svd denmatDecomp args qrLinkL qrLinkR sdimL sdimR D = .ok
      { connected := connectedComp D
        residual := subtractConnected D
        subD := copyOut sdimL sdimR qrLinkL.dim qrLinkR.dim (subtractConnected D)
        subDTrunc := T
        written := writeBack sdimL sdimR qrLinkL.dim qrLinkR.dim (subtractConnected D) T
        reassembled := fun a c =>
          writeBack sdimL sdimR qrLinkL.dim qrLinkR.dim (subtractConnected D) T a c
            + connectedComp D a c } := by
  obtain ⟨rL, hrL⟩ := reduceDimTop_ok qrLinkL sdimL hL
  obtain ⟨rR, hrR⟩ := reduceDimTop_ok qrLinkR sdimR hR
  simp only [svdBondResidual, hrL, hrR, hT]

/-- In the degenerate case the truncation returns the zero tensor without calling a
factorisation. -/
theorem truncateResidual_degenerate {K : Type} [Zero K]
    (svd denmatDecomp : Int → Tensor2 K → Except String (Tensor2 K))
    (args : TruncArgs) (sdimL sdimR : Int) (subD : Tensor2 K)
    (hcap : args.maxDim - (sdimL + sdimR) ≤ 0) :
    truncateResidual svd denmatDecomp args sdimL sdimR subD = .ok Tensor2.zero := by
  simp only [truncateResidual, hcap, if_true]

/-- The inner write-back loop on row `i`, on machine values. -/
theorem writeBackMachine_row {K : Type} [Zero K] [DecidableEq K] (sdimL sdimR dimR i : Int)
    (subD acc0 : Tensor2 (MachineVal K)) (a c : Int) :
    forUpTo (sdimR + 1) dimR (fun j (D : Tensor2 (MachineVal K)) =>
        let el := D i j
        if el.absPos then D.set i j (subD (i - sdimL) (j - sdimR)) else D) acc0 a c
      = if a = i ∧ sdimR + 1 ≤ c ∧ c ≤ dimR ∧ (acc0 i c).absPos = true
        then subD (i - sdimL) (c - sdimR) else acc0 a c := by
  have key := forUpTo_inv (sdimR + 1) dimR (fun j (D : Tensor2 (MachineVal K)) =>
        let el := D i j
        if el.absPos then D.set i j (subD (i - sdimL) (j - sdimR)) else D)
    (fun k acc => ∀ a c, acc a c =
      if a = i ∧ sdimR + 1 ≤ c ∧ c < sdimR + 1 + (k : Int) ∧ (acc0 i c).absPos = true
      then subD (i - sdimL) (c - sdimR) else acc0 a c) acc0
    (by
      intro a c
      rw [if_neg]
      rintro ⟨-, h1, h2, -⟩
      omega)
    (by
      intro k _ acc hacc a c
      have hcur : acc i (sdimR + 1 + (k : Int)) = acc0 i (sdimR + 1 + (k : Int)) := by
        rw [hacc, if_neg]
        rintro ⟨-, -, h2, -⟩
        omega
      simp only [hcur]
      by_cases hnz : (acc0 i (sdimR + 1 + (k : Int))).absPos = true
      · rw [if_pos hnz]
        simp only [Tensor2.set]
        by_cases hac : a = i ∧ c = sdimR + 1 + (k : Int)
        · rw [if_pos hac, if_pos]
          · rw [hac.2]
          · refine ⟨hac.1, by omega, by omega, ?_⟩
            rw [hac.2]
            exact hnz
        · rw [if_neg hac, hacc a c]
          apply if_congr _ rfl rfl
          constructor
          · rintro ⟨h1, h2, h3, h4⟩
            exact ⟨h1, h2, by omega, h4⟩
          · rintro ⟨h1, h2, h3, h4⟩
            refine ⟨h1, h2, ?_, h4⟩
            have : c ≠ sdimR + 1 + (k : Int) := fun hc => hac ⟨h1, hc⟩
            push_cast at h3
            omega
      · rw [if_neg hnz, hacc a c]
        apply if_congr _ rfl rfl
        constructor
        · rintro ⟨h1, h2, h3, h4⟩
          exact ⟨h1, h2, by omega, h4⟩
        · rintro ⟨h1, h2, h3, h4⟩
          refine ⟨h1, h2, ?_, h4⟩
          have : c ≠ sdimR + 1 + (k : Int) := by
            intro hc
            rw [hc] at h4
            exact hnz h4
          push_cast at h3
          omega)
  rw [key a c]
  apply if_congr _ rfl rfl
  constructor
  · rintro ⟨h1, h2, h3, h4⟩
    exact ⟨h1, h2, by omega, h4⟩
  · rintro ⟨h1, h2, h3, h4⟩
    exact ⟨h1, h2, by omega, h4⟩

/-- What the write-back loops compute on machine values: inside the block the entries of `D`
that pass the test `abs(el) > 0` are replaced by the entries of `subD` at the shifted position,
every other entry of `D`, a NaN included, is left as it is. -/
theorem writeBackMachine_apply {K : Type} [Zero K] [DecidableEq K]
    (sdimL sdimR dimL dimR : Int) (D subD : Tensor2 (MachineVal K)) (a c : Int) :
    writeBackMachine sdimL sdimR dimL dimR D subD a c
      = if sdimL + 1 ≤ a ∧ a ≤ dimL ∧ sdimR + 1 ≤ c ∧ c ≤ dimR ∧ (D a c).absPos = true
        then subD (a - sdimL) (c - sdimR) else D a c := by
  have key := forUpTo_inv (sdimL + 1) dimL (fun i (D : Tensor2 (MachineVal K)) =>
      forUpTo (sdimR + 1) dimR (fun j (D : Tensor2 (MachineVal K)) =>
        let el := D i j
        if el.absPos then D.set i j (subD (i - sdimL) (j - sdimR)) else D) D)
    (fun k acc => ∀ a c, acc a c =
      if sdimL + 1 ≤ a ∧ a < sdimL + 1 + (k : Int) ∧ sdimR + 1 ≤ c ∧ c ≤ dimR ∧
          (D a c).absPos = true
      then subD (a - sdimL) (c - sdimR) else D a c) D
    (by
      intro a c
      rw [if_neg]
      rintro ⟨h1, h2, -⟩
      omega)
    (by
      intro k _ acc hacc a c
      have hrow : ∀ c', acc (sdimL + 1 + (k : Int)) c' = D (sdimL + 1 + (k : Int)) c' := by
        intro c'
        rw [hacc, if_neg]
        rintro ⟨-, h2, -⟩
        omega
      beta_reduce
      rw [writeBackMachine_row, hrow c]
      by_cases hai : a = sdimL + 1 + (k : Int)
      · subst hai
        apply if_congr _ rfl (hrow c)
        constructor
        · rintro ⟨-, h2, h3, h4⟩
          exact ⟨by omega, by omega, h2, h3, h4⟩
        · rintro ⟨-, -, h3, h4, h5⟩
          exact ⟨rfl, h3, h4, h5⟩
      · rw [if_neg (fun h => hai h.1), hacc a c]
        apply if_congr _ rfl rfl
        constructor
        · rintro ⟨h1, h2, h3⟩
          exact ⟨h1, by omega, h3⟩
        · rintro ⟨h1, h2, h3⟩
          refine ⟨h1, ?_, h3⟩
          push_cast at h2
          omega)
  unfold writeBackMachine
  rw [key a c]
  apply if_congr _ rfl rfl
  constructor
  · rintro ⟨h1, h2, h3⟩
    exact ⟨h1, by omega, h3⟩
  · rintro ⟨h1, h2, h3⟩
    exact ⟨h1, by omega, h3⟩

/-- The residual step on machine values completes as soon as the preserved dimensions fit into
the link dimensions and the truncation of `subD` returns. -/
theorem svdBondResidualMachine_ok {K Q : Type} [Field K] [DecidableEq K]
    (svd denmatDecomp :
      Int → Tensor2 (MachineVal K) → Except String (Tensor2 (MachineVal K)))
    (args : TruncArgs) (qrLinkL qrLinkR : Index Q) (sdimL sdimR : Int) (D : Tensor2 K)
    (T : Tensor2 (MachineVal K))
    (hL : sdimL ≤ qrLinkL.dim) (hR : sdimR ≤ qrLinkR.dim)
    (hT : truncateResidual svd denmatDecomp args sdimL sdimR
      (copyOutMachine sdimL sdimR qrLinkL.dim qrLinkR.dim (subtractConnectedMachine D))
      = .ok T) :
    svdBondResidualMachine svd denmatDecomp args qrLinkL qrLinkR sdimL sdimR D = .ok
      { connected := connectedCompMachine D
        residual := subtractConnectedMachine D
        subD := copyOutMachine sdimL sdimR qrLinkL.dim qrLinkR.dim (subtractConnectedMachine D)
        subDTrunc := T
        written := writeBackMachine sdimL sdimR qrLinkL.dim qrLinkR.dim
          (subtractConnectedMachine D) T } := by
  obtain ⟨rL, hrL⟩ := reduceDimTop_ok qrLinkL sdimL hL
  obtain ⟨rR, hrR⟩ := reduceDimTop_ok qrLinkR sdimR hR
  simp only [svdBondResidualMachine, hrL, hrR, hT]

/-- Where `D[1,1]` is not zero the machine values of lines 357-358 are the numbers of the
exact embedding. -/
theorem subtractConnectedMachine_num {K : Type} [Field K] [DecidableEq K] (D : Tensor2 K)
    (h11 : D 1 1 ≠ 0) (a c : Int) :
    subtractConnectedMachine D a c = MachineVal.num (subtractConnected D a c) := by
  simp only [subtractConnectedMachine, connectedCompMachine, MachineVal.div, h11, ne_eq,
    not_false_eq_true, if_true, MachineVal.subFrom, subtractConnected, connectedComp]

/-- Where `D[1,1]` is zero and row 1 or column 1 of `D` has a zero at the position concerned,
line 357 computes `0/0`, and the entry of `D` after line 358 is a NaN. -/
theorem subtractConnectedMachine_nan {K : Type} [Field K] [DecidableEq K] (D : Tensor2 K)
    (h11 : D 1 1 = 0) (a c : Int) (hnum : D 1 c * D a 1 = 0) :
    subtractConnectedMachine D a c = MachineVal.nan := by
  simp only [subtractConnectedMachine, connectedCompMachine, MachineVal.div, h11, ne_eq,
    not_true_eq_false, if_false, hnum, if_true, MachineVal.subFrom]

/-- C4 (amended). Degenerate capacity: in the truncation branch (`sdimL < dim(qrLinkL)` and
`sdimR < dim(qrLinkR)`, the link dimensions of the complete QR being those of `indDL` and
`indDR`), for every rotated bond matrix `D` with `D[1,1] != 0`, whenever
`MaxDim - (sdimL + sdimR) <= 0` the residual step returns without an error, it returns the same
when both factorisations are replaced by ones that always throw (so none is called), and after
the write-back loop every entry `(i, j)` of `D` with `i > sdimL` and `j > sdimR` is zero.
This holds in the exact embedding and on machine values, where the entries of `D` after
line 358 are the same numbers. -/
theorem svdBond_degenerate_capacity {K Q : Type} [Field K] [DecidableEq K]
    (svd denmatDecomp : Int → Tensor2 K → Except String (Tensor2 K))
    (svdM denmatDecompM :
      Int → Tensor2 (MachineVal K) → Except String (Tensor2 (MachineVal K)))
    (args : TruncArgs) (qrLinkL qrLinkR : Index Q) (sdimL sdimR : Int) (D : Tensor2 K)
    (h11 : D 1 1 ≠ 0)
    (hL : sdimL < qrLinkL.dim) (hR : sdimR < qrLinkR.dim)
    (hcap : args.maxDim - (sdimL + sdimR) ≤ 0) :
    (∃ tr, svdBondResidual svd denmatDecomp args qrLinkL qrLinkR sdimL sdimR D = .ok tr ∧
      svdBondResidual (fun _ _ => .error "svd called") (fun _ _ => .error "denmatDecomp called")
        args qrLinkL qrLinkR sdimL sdimR D = .ok tr ∧
      (∀ a c, tr.subDTrunc a c = 0) ∧
      (∀ i j, sdimL < i → i ≤ qrLinkL.dim → sdimR < j → j ≤ qrLinkR.dim →
        tr.written i j = 0)) ∧
    (∃ trM, svdBondResidualMachine svdM denmatDecompM args qrLinkL qrLinkR sdimL sdimR D
        = .ok trM ∧
      svdBondResidualMachine (fun _ _ => .error "svd called")
        (fun _ _ => .error "denmatDecomp called") args qrLinkL qrLinkR sdimL sdimR D
        = .ok trM ∧
      (∀ a c, trM.residual a c = MachineVal.num (subtractConnected D a c)) ∧
      (∀ a c, trM.subDTrunc a c = MachineVal.num 0) ∧
      (∀ i j, sdimL < i → i ≤ qrLinkL.dim → sdimR < j → j ≤ qrLinkR.dim →
        trM.written i j = MachineVal.num 0)) := by
  constructor
  · refine ⟨_, svdBondResidual_ok svd denmatDecomp args qrLinkL qrLinkR sdimL sdimR D _
        (le_of_lt hL) (le_of_lt hR) (truncateResidual_degenerate _ _ args sdimL sdimR _ hcap),
      svdBondResidual_ok _ _ args qrLinkL qrLinkR sdimL sdimR D _
        (le_of_lt hL) (le_of_lt hR) (truncateResidual_degenerate _ _ args sdimL sdimR _ hcap),
      fun _ _ => rfl, ?_⟩
    intro i j hi hi' hj hj'
    show writeBack sdimL sdimR qrLinkL.dim qrLinkR.dim (subtractConnected D) Tensor2.zero i j = 0
    rw [writeBack_apply]
    by_cases hnz : subtractConnected D i j ≠ 0
    · rw [if_pos ⟨by omega, hi', by omega, hj', hnz⟩]
      rfl
    · rw [if_neg (fun h => hnz h.2.2.2.2)]
      exact not_not.mp hnz
  · refine ⟨_, svdBondResidualMachine_ok svdM denmatDecompM args qrLinkL qrLinkR sdimL sdimR D _
        (le_of_lt hL) (le_of_lt hR) (truncateResidual_degenerate _ _ args sdimL sdimR _ hcap),
      svdBondResidualMachine_ok _ _ args qrLinkL qrLinkR sdimL sdimR D _
        (le_of_lt hL) (le_of_lt hR) (truncateResidual_degenerate _ _ args sdimL sdimR _ hcap),
      fun a c => subtractConnectedMachine_num D h11 a c, fun _ _ => rfl, ?_⟩
    intro i j hi hi' hj hj'
    show writeBackMachine sdimL sdimR qrLinkL.dim qrLinkR.dim (subtractConnectedMachine D)
      Tensor2.zero i j = MachineVal.num 0
    rw [writeBackMachine_apply]
    by_cases hpos : (subtractConnectedMachine D i j).absPos = true
    · rw [if_pos ⟨by omega, hi', by omega, hj', hpos⟩]
      rfl
    · rw [if_neg (fun h => hpos h.2.2.2.2)]
      rw [subtractConnectedMachine_num D h11] at hpos ⊢
      have hz : subtractConnected D i j = 0 := by
        simpa [MachineVal.absPos] using hpos
      rw [hz]

/-- The degenerate case on the 3 by 3 sample matrix (`D[1,1] = 1`) with `sdimL = sdimR = 1`
and `MaxDim = 2`. -/
theorem svdBond_degenerate_capacity_witness :
    sampleRotated 1 1 ≠ 0 ∧ (1 : Int) < sampleLink.dim ∧
    ({ sampleArgs with maxDim := 2 } : TruncArgs).maxDim - (1 + 1) ≤ 0 ∧
    (∃ tr, svdBondResidual (fun _ _ => .ok sampleTruncated) (fun _ _ => .ok sampleTruncated)
        { sampleArgs with maxDim := 2 } sampleLink sampleLink 1 1 sampleRotated = .ok tr ∧
      svdBondResidual (fun _ _ => .error "svd called") (fun _ _ => .error "denmatDecomp called")
        { sampleArgs with maxDim := 2 } sampleLink sampleLink 1 1 sampleRotated = .ok tr ∧
      (∀ a c, tr.subDTrunc a c = 0) ∧
      (∀ i j, 1 < i → i ≤ sampleLink.dim → 1 < j → j ≤ sampleLink.dim →
        tr.written i j = 0)) ∧
    (∃ trM, svdBondResidualMachine (fun _ X => .ok X) (fun _ X => .ok X)
        { sampleArgs with maxDim := 2 } sampleLink sampleLink 1 1 sampleRotated = .ok trM ∧
      svdBondResidualMachine (fun _ _ => .error "svd called")
        (fun _ _ => .error "denmatDecomp called") { sampleArgs with maxDim := 2 }
        sampleLink sampleLink 1 1 sampleRotated = .ok trM ∧
      (∀ a c, trM.residual a c = MachineVal.num (subtractConnected sampleRotated a c)) ∧
      (∀ a c, trM.subDTrunc a c = MachineVal.num 0) ∧
      (∀ i j, 1 < i → i ≤ sampleLink.dim → 1 < j → j ≤ sampleLink.dim →
        trM.written i j = MachineVal.num 0)) :=
  have h11 : sampleRotated 1 1 ≠ 0 := by simp [sampleRotated]
  ⟨h11, by decide, by decide,
    svdBond_degenerate_capacity (fun _ _ => .ok sampleTruncated) (fun _ _ => .ok sampleTruncated)
      (fun _ X => .ok X) (fun _ X => .ok X)
      { sampleArgs with maxDim := 2 } sampleLink sampleLink 1 1 sampleRotated
      h11 (by decide) (by decide) (by decide)⟩

/-- C4 as stated fails.  The rotated bond matrix `[[0, 0, 0], [0, 5, 0], [0, 0, 7]]` has
`D[1,1] = 0` and a first row and column of zeros, so with `sdimL = sdimR = 1` and
`MaxDim = 2` (`subMaxDim = 0`, the degenerate case) line 357 computes `0/0` at every entry:
`connectedComp` and then `D` are NaN throughout.  No error is raised and no factorisation is
called, `subD` is filled with zeros, but the write-back test `abs(el) > 0` is false on a NaN,
so the entries `(2, 2)`, `(2, 3)`, `(3, 2)` and `(3, 3)` of the residual block are still NaN
after the write-back loop, not zero. -/
theorem svdBond_degenerate_capacity_counterexample :
    sampleTraceless 1 1 = 0 ∧
    ({ sampleArgs with maxDim := 2 } : TruncArgs).maxDim - (1 + 1) ≤ 0 ∧
    Except.map
        (fun trM => (trM.residual 2 2, trM.subDTrunc 1 1,
          trM.written 2 2, trM.written 2 3, trM.written 3 2, trM.written 3 3))
        (svdBondResidualMachine (fun _ _ => .error "svd called")
          (fun _ _ => .error "denmatDecomp called") { sampleArgs with maxDim := 2 }
          sampleLink sampleLink 1 1 sampleTraceless)
      = .ok (MachineVal.nan, MachineVal.num 0,
          MachineVal.nan, MachineVal.nan, MachineVal.nan, MachineVal.nan) ∧
    (MachineVal.nan : MachineVal ℚ) ≠ MachineVal.num 0 := by
  have h11 : sampleTraceless 1 1 = 0 := by simp [sampleTraceless]
  have hrow : ∀ c : Int, sampleTraceless 1 c = 0 := by
    intro c
    simp [sampleTraceless]
  have hnan : ∀ a c : Int, subtractConnectedMachine sampleTraceless a c = MachineVal.nan :=
    fun a c => subtractConnectedMachine_nan sampleTraceless h11 a c (by rw [hrow c, zero_mul])
  have hw : ∀ a c : Int, writeBackMachine 1 1 sampleLink.dim sampleLink.dim
      (subtractConnectedMachine sampleTraceless) Tensor2.zero a c = MachineVal.nan := by
    intro a c
    rw [writeBackMachine_apply, if_neg, hnan]
    rintro ⟨-, -, -, -, h⟩
    rw [hnan] at h
    exact absurd h (by decide)
  refine ⟨h11, by decide, ?_, by decide⟩
  rw [svdBondResidualMachine_ok _ _ { sampleArgs with maxDim := 2 } sampleLink sampleLink 1 1
    sampleTraceless Tensor2.zero (by decide) (by decide)
    (truncateResidual_degenerate _ _ _ 1 1 _ (by decide))]
  show Except.ok (subtractConnectedMachine sampleTraceless 2 2,
      (Tensor2.zero : Tensor2 (MachineVal ℚ)) 1 1,
      writeBackMachine 1 1 sampleLink.dim sampleLink.dim
        (subtractConnectedMachine sampleTraceless) Tensor2.zero 2 2,
      writeBackMachine 1 1 sampleLink.dim sampleLink.dim
        (subtractConnectedMachine sampleTraceless) Tensor2.zero 2 3,
      writeBackMachine 1 1 sampleLink.dim sampleLink.dim
        (subtractConnectedMachine sampleTraceless) Tensor2.zero 3 2,
      writeBackMachine 1 1 sampleLink.dim sampleLink.dim
        (subtractConnectedMachine sampleTraceless) Tensor2.zero 3 3)
    = Except.ok (MachineVal.nan, MachineVal.num 0,
        MachineVal.nan, MachineVal.nan, MachineVal.nan, MachineVal.nan)
  rw [hnan, hw, hw, hw, hw]
  rfl

/-- C9. Truncation touches only the residual block: for every rotated bond matrix `D` with
`D[1,1] != 0`, all `sdimL >= 1` and `sdimR >= 1` that fit the truncation branch, and whatever
matrix `T` the truncation of the residual block returns, the residual step completes with
`T` as truncated block, and the bond matrix after the subtract, truncate, write-back and
add-back steps equals `D` at every entry `(i, j)` with `i <= sdimL` or `j <= sdimR`. -/
theorem svdBond_truncation_frame {K Q : Type} [Field K] [DecidableEq K]
    (svd denmatDecomp : Int → Tensor2 K → Except String (Tensor2 K))
    (args : TruncArgs) (qrLinkL qrLinkR : Index Q) (sdimL sdimR : Int) (D T : Tensor2 K)
    (_h11 : D 1 1 ≠ 0) (_hsL : 1 ≤ sdimL) (_hsR : 1 ≤ sdimR)
    (hL : sdimL < qrLinkL.dim) (hR : sdimR < qrLinkR.dim)
    (hT : truncateResidual svd denmatDecomp args sdimL sdimR
      (copyOut sdimL sdimR qrLinkL.dim qrLinkR.dim (subtractConnected D)) = .ok T) :
    ∃ tr, svdBondResidual svd denmatDecomp args qrLinkL qrLinkR sdimL sdimR D = .ok tr ∧
      tr.subDTrunc = T ∧
      ∀ i j, (i ≤ sdimL ∨ j ≤ sdimR) → tr.reassembled i j = D i j := by
  refine ⟨_, svdBondResidual_ok svd denmatDecomp args qrLinkL qrLinkR sdimL sdimR D T
    (le_of_lt hL) (le_of_lt hR) hT, rfl, ?_⟩
  intro i j hij
  show writeBack sdimL sdimR qrLinkL.dim qrLinkR.dim (subtractConnected D) T i j
      + connectedComp D i j = D i j
  rw [writeBack_apply, if_neg]
  · simp only [subtractConnected, sub_add_cancel]
  · rintro ⟨h1, -, h3, -⟩
    rcases hij with h | h <;> omega

theorem sampleArgs_truncate (S : Tensor2 ℚ) :
    truncateResidual (fun _ _ => .ok sampleTruncated) (fun _ _ => .error "denmatDecomp called")
      sampleArgs 1 1 S = .ok sampleTruncated := by
  simp [truncateResidual, sampleArgs, liftLibrary]

/-- The residual step on the 3 by 3 sample matrix with `sdimL = sdimR = 1`, `MaxDim = 3` and
an SVD that returns the rank-one truncation of the residual block. -/
theorem svdBond_truncation_frame_witness :
    sampleRotated 1 1 ≠ 0 ∧ (1 : Int) ≤ 1 ∧ (1 : Int) < sampleLink.dim ∧
    truncateResidual (fun _ _ => .ok sampleTruncated) (fun _ _ => .error "denmatDecomp called")
      sampleArgs 1 1 (copyOut 1 1 sampleLink.dim sampleLink.dim (subtractConnected sampleRotated))
      = .ok sampleTruncated ∧
    ∃ tr, svdBondResidual (fun _ _ => .ok sampleTruncated)
        (fun _ _ => .error "denmatDecomp called") sampleArgs sampleLink sampleLink 1 1
        sampleRotated = .ok tr ∧
      tr.subDTrunc = sampleTruncated ∧
      ∀ i j, (i ≤ 1 ∨ j ≤ 1) → tr.reassembled i j = sampleRotated i j :=
  ⟨by simp [sampleRotated], by decide, by decide, sampleArgs_truncate _,
    svdBond_truncation_frame (fun _ _ => .ok sampleTruncated)
      (fun _ _ => .error "denmatDecomp called") sampleArgs sampleLink sampleLink 1 1
      sampleRotated sampleTruncated (by simp [sampleRotated]) (by decide) (by decide)
      (by decide) (by decide) (sampleArgs_truncate _)⟩

/-- C10 (amended). Write-back of the truncated submatrix: for every residual matrix `D` and
every truncated submatrix `T`, after the write-back loop, at every `(i, j)` of the residual
block (`sdimL < i <= dimL`, `sdimR < j <= dimR`) where `D[i, j]` was non-zero before the loop,
`D[i, j] = T[i - sdimL, j - sdimR]`; where `D[i, j]` was zero before the loop it is still
zero. -/
theorem writeBack_nonzero_entries {K : Type} [Zero K] [DecidableEq K]
    (sdimL sdimR dimL dimR : Int) (D T : Tensor2 K) (i j : Int)
    (hi : sdimL < i) (hi' : i ≤ dimL) (hj : sdimR < j) (hj' : j ≤ dimR) :
    (D i j ≠ 0 → writeBack sdimL sdimR dimL dimR D T i j = T (i - sdimL) (j - sdimR)) ∧
    (D i j = 0 → writeBack sdimL sdimR dimL dimR D T i j = 0) := by
  constructor
  · intro hnz
    rw [writeBack_apply, if_pos ⟨by omega, hi', by omega, hj', hnz⟩]
  · intro hz
    rw [writeBack_apply, if_neg (fun h => h.2.2.2.2 hz), hz]

theorem sample_residual_entry : subtractConnected sampleRotated 2 2 = -175 := by
  simp [subtractConnected, connectedComp, sampleRotated]

/-- The write-back at the entry `(2, 2)` of the residual of the sample matrix, which is
`-175` before the loop and `T[1, 1] = -256` after it. -/
theorem writeBack_nonzero_entries_witness :
    ((1 : Int) < 2 ∧ (2 : Int) ≤ 3) ∧
    subtractConnected sampleRotated 2 2 ≠ 0 ∧
    writeBack 1 1 3 3 (subtractConnected sampleRotated) sampleTruncated 2 2
      = sampleTruncated (2 - 1) (2 - 1) ∧
    sampleTruncated (2 - 1) (2 - 1) = -256 :=
  have hnz : subtractConnected sampleRotated 2 2 ≠ 0 := by
    rw [sample_residual_entry]
    norm_num
  ⟨by decide, hnz,
    (writeBack_nonzero_entries 1 1 3 3 (subtractConnected sampleRotated) sampleTruncated 2 2
      (by decide) (by decide) (by decide) (by decide)).1 hnz,
    by simp [sampleTruncated]⟩

/-- C10 as stated fails.  With `sdimL = sdimR = 1`, `MaxDim = 3` (so `subMaxDim = 1`, the
non-degenerate case) and the 3 by 3 sample matrix, the residual block is
`[[-175, 300], [300, 0]]` and its rank-one truncation is `T = [[-256, 192], [192, -144]]`.  The
residual step completes with `T` as truncated block, yet after the write-back loop
`D[3, 3] = 0`, which is not `T[2, 2] = -144`. -/
theorem writeBack_whole_block_counterexample :
    Except.map (fun tr => (tr.residual 3 3, tr.subDTrunc (3 - 1) (3 - 1), tr.written 3 3))
        (svdBondResidual (fun _ _ => .ok sampleTruncated)
          (fun _ _ => .error "denmatDecomp called") sampleArgs sampleLink sampleLink 1 1
          sampleRotated)
      = .ok (0, -144, 0) ∧
    subtractConnected sampleRotated 3 3 = 0 ∧
    writeBack 1 1 3 3 (subtractConnected sampleRotated) sampleTruncated 3 3 = 0 ∧
    sampleTruncated (3 - 1) (3 - 1) = -144 ∧
    writeBack 1 1 3 3 (subtractConnected sampleRotated) sampleTruncated 3 3
      ≠ sampleTruncated (3 - 1) (3 - 1) := by
  have hres : subtractConnected sampleRotated 3 3 = 0 := by
    simp [subtractConnected, connectedComp, sampleRotated]
  have hw : writeBack 1 1 3 3 (subtractConnected sampleRotated) sampleTruncated 3 3 = 0 := by
    rw [writeBack_apply, if_neg (fun h => h.2.2.2.2 hres), hres]
  have hT : sampleTruncated (3 - 1) (3 - 1) = -144 := by
    simp [sampleTruncated]
  refine ⟨?_, hres, hw, hT, ?_⟩
  · rw [svdBondResidual_ok _ _ sampleArgs sampleLink sampleLink 1 1 sampleRotated
      sampleTruncated (by decide) (by decide) (sampleArgs_truncate _)]
    show Except.ok (subtractConnected sampleRotated 3 3, sampleTruncated (3 - 1) (3 - 1),
      writeBack 1 1 sampleLink.dim sampleLink.dim (subtractConnected sampleRotated)
        sampleTruncated 3 3) = Except.ok (0, -144, 0)
    rw [show sampleLink.dim = 3 from rfl, hres, hw, hT]
  · rw [hw, hT]
    norm_num

/-! ## Rotation and un-rotation -/

theorem sum_Icc_one {M : Type} [AddCommMonoid M] (f : Int → M) (n : Nat) :
    ∑ i ∈ Finset.Icc (1 : Int) (n : Int), f i = ∑ k : Fin n, f ((k.val : Int) + 1) := by
  rw [Int.Icc_eq_finset_map, Finset.sum_map]
  simp only [Function.Embedding.trans_apply, Nat.castEmbedding_apply, addLeftEmbedding_apply]
  have hn : ((n : Int) + 1 - 1).toNat = n := by omega
  rw [hn, ← Fin.sum_univ_eq_sum_range (fun k => f (1 + (k : Int))) n]
  apply Finset.sum_congr rfl
  intro k _
  rw [add_comm]

theorem toMatrix_rotateBond {K : Type} [CommSemiring K] (nL nR dL dR : Nat)
    (P D Q : Tensor2 K) :
    toMatrix dL dR (rotateBond nL nR P D Q)
      = (toMatrix nL dL P).transpose * toMatrix nL nR D * toMatrix nR dR Q := by
  ext a c
  simp only [toMatrix, rotateBond, mulLastFirst, mulFirstFirst, Matrix.mul_apply,
    Matrix.transpose_apply, sum_Icc_one]

theorem toMatrix_unrotateBond {K : Type} [CommSemiring K] (nL nR dL dR : Nat)
    (P D Q : Tensor2 K) :
    toMatrix nL nR (unrotateBond dL dR P D Q)
      = toMatrix nL dL P * toMatrix dL dR D * (toMatrix nR dR Q).transpose := by
  ext a c
  simp only [toMatrix, unrotateBond, mulLastLast, mulLastFirst, Matrix.mul_apply,
    Matrix.transpose_apply, sum_Icc_one]

theorem toMatrix_conj_transpose {K : Type} [Star K] (n m : Nat) (T : Tensor2 K) :
    (toMatrix n m T.conj).transpose = (toMatrix n m T).conjTranspose := by
  ext a c
  simp [toMatrix, Tensor2.conj, Matrix.conjTranspose_apply]

theorem conj_conj {K : Type} [InvolutiveStar K] (T : Tensor2 K) : T.conj.conj = T := by
  funext a c
  simp [Tensor2.conj]

/-- Rotating with the conjugated `QbasisL` and `QbasisR`, and un-rotating with `QbasisL` and the
conjugated `QbasisR`, gives back the bond matrix when both basis changes are unitary. -/
theorem unrotate_rotate {K : Type} [Field K] [StarRing K] (nL nR : Nat)
    (QbasisL QbasisR D : Tensor2 K)
    (hUL : toMatrix nL nL QbasisL ∈ Matrix.unitaryGroup (Fin nL) K)
    (hUR : toMatrix nR nR QbasisR ∈ Matrix.unitaryGroup (Fin nR) K) :
    toMatrix nL nR (unrotateBond nL nR QbasisL.conj.conj
        (rotateBond nL nR QbasisL.conj D QbasisR) QbasisR.conj)
      = toMatrix nL nR D := by
  have hL : toMatrix nL nL QbasisL * (toMatrix nL nL QbasisL).conjTranspose = 1 := by
    have := Matrix.mem_unitaryGroup_iff.mp hUL
    rwa [Matrix.star_eq_conjTranspose] at this
  have hR : toMatrix nR nR QbasisR * (toMatrix nR nR QbasisR).conjTranspose = 1 := by
    have := Matrix.mem_unitaryGroup_iff.mp hUR
    rwa [Matrix.star_eq_conjTranspose] at this
  rw [toMatrix_unrotateBond, toMatrix_rotateBond, conj_conj, toMatrix_conj_transpose,
    toMatrix_conj_transpose]
  calc toMatrix nL nL QbasisL
          * ((toMatrix nL nL QbasisL).conjTranspose * toMatrix nL nR D * toMatrix nR nR QbasisR)
          * (toMatrix nR nR QbasisR).conjTranspose
      = (toMatrix nL nL QbasisL * (toMatrix nL nL QbasisL).conjTranspose) * toMatrix nL nR D
          * (toMatrix nR nR QbasisR * (toMatrix nR nR QbasisR).conjTranspose) := by
        simp only [Matrix.mul_assoc]
    _ = toMatrix nL nR D := by rw [hL, hR, Matrix.one_mul, Matrix.mul_one]

theorem toMatrix_entry {K : Type} (n m : Nat) (T : Tensor2 K) (i j : Int)
    (hi : 1 ≤ i) (hi' : i ≤ n) (hj : 1 ≤ j) (hj' : j ≤ m) :
    T i j = toMatrix n m T ⟨(i - 1).toNat, by omega⟩ ⟨(j - 1).toNat, by omega⟩ := by
  simp only [toMatrix]
  congr 1 <;> omega

/-- When the truncation keeps the residual block, the write-back changes nothing and the
reassembled bond matrix is the rotated one. -/
theorem reassembled_of_keep {K : Type} [Field K] [DecidableEq K] (sdimL sdimR dimL dimR : Int)
    (D T : Tensor2 K)
    (hkeep : ∀ a c, 1 ≤ a → a + sdimL ≤ dimL → 1 ≤ c → c + sdimR ≤ dimR →
      T a c = copyOut sdimL sdimR dimL dimR (subtractConnected D) a c) :
    (fun a c => writeBack sdimL sdimR dimL dimR (subtractConnected D) T a c
      + connectedComp D a c) = D := by
  funext a c
  have hw : writeBack sdimL sdimR dimL dimR (subtractConnected D) T a c
      = subtractConnected D a c := by
    rw [writeBack_apply]
    by_cases hblk : sdimL + 1 ≤ a ∧ a ≤ dimL ∧ sdimR + 1 ≤ c ∧ c ≤ dimR ∧
        subtractConnected D a c ≠ 0
    · rw [if_pos hblk, hkeep _ _ (by omega) (by omega) (by omega) (by omega), copyOut_apply,
        if_pos ⟨by omega, by omega, by omega, by omega⟩]
      congr 1 <;> omega
    · rw [if_neg hblk]
  rw [hw]
  simp only [subtractConnected, sub_add_cancel]

theorem svdBondTruncate_ok {K Q : Type} [Field K] [StarRing K] [DecidableEq K]
    (svd denmatDecomp : Int → Tensor2 K → Except String (Tensor2 K))
    (args : TruncArgs) (indDL indDR qrLinkL qrLinkR : Index Q) (sdimL sdimR : Int)
    (QbasisL QbasisR D : Tensor2 K) (tr : TruncationTrace K)
    (hres : svdBondResidual svd denmatDecomp args qrLinkL qrLinkR sdimL sdimR
      (rotateBond indDL.dim indDR.dim QbasisL.conj D QbasisR) = .ok tr) :
    svdBondTruncate svd denmatDecomp args indDL indDR qrLinkL qrLinkR sdimL sdimR
        QbasisL QbasisR D
      = .ok (tr, unrotateBond qrLinkL.dim qrLinkR.dim QbasisL.conj.conj tr.reassembled
          QbasisR.conj) := by
  simp only [svdBondTruncate, hres]

/-- C3. Preserved-subspace exactness: for every bond matrix `D` (indices `indDL`, `indDR` of
dimensions `nL`, `nR`) and all unitary basis changes `QbasisL`, `QbasisR` (complete QR: the
links `qrLinkL`, `qrLinkR` have the dimensions `nL`, `nR` too), with rotated entry
`D'[1,1] != 0`, in the truncation branch (`sdimL < nL`, `sdimR < nR`), if the truncation of the
residual block returns a block `T` that agrees with the copied residual block at every
position of the block, then the truncation branch completes, the reassembled bond matrix is
the rotated one, and `newAA` equals the original `D` at every entry. -/
theorem svdBond_preserved_roundtrip {K Q : Type} [Field K] [StarRing K] [DecidableEq K]
    (svd denmatDecomp : Int → Tensor2 K → Except String (Tensor2 K))
    (args : TruncArgs) (indDL indDR qrLinkL qrLinkR : Index Q) (nL nR : Nat)
    (sdimL sdimR : Int) (QbasisL QbasisR D T : Tensor2 K)
    (hdimL : indDL.dim = nL) (hdimR : indDR.dim = nR)
    (hqrL : qrLinkL.dim = nL) (hqrR : qrLinkR.dim = nR)
    (hUL : toMatrix nL nL QbasisL ∈ Matrix.unitaryGroup (Fin nL) K)
    (hUR : toMatrix nR nR QbasisR ∈ Matrix.unitaryGroup (Fin nR) K)
    (_h11 : rotateBond nL nR QbasisL.conj D QbasisR 1 1 ≠ 0)
    (hL : sdimL < nL) (hR : sdimR < nR)
    (hT : truncateResidual svd denmatDecomp args sdimL sdimR
      (copyOut sdimL sdimR nL nR (subtractConnected (rotateBond nL nR QbasisL.conj D QbasisR)))
      = .ok T)
    (hkeep : ∀ a c, 1 ≤ a → a + sdimL ≤ nL → 1 ≤ c → c + sdimR ≤ nR →
      T a c = copyOut sdimL sdimR nL nR
        (subtractConnected (rotateBond nL nR QbasisL.conj D QbasisR)) a c) :
    ∃ tr newAA,
      svdBondTruncate svd denmatDecomp args indDL indDR qrLinkL qrLinkR sdimL sdimR
        QbasisL QbasisR D = .ok (tr, newAA) ∧
      tr.subDTrunc = T ∧
      tr.reassembled = rotateBond nL nR QbasisL.conj D QbasisR ∧
      ∀ i j : Int, 1 ≤ i → i ≤ nL → 1 ≤ j → j ≤ nR → newAA i j = D i j := by
  have hres := svdBondResidual_ok svd denmatDecomp args qrLinkL qrLinkR sdimL sdimR
    (rotateBond nL nR QbasisL.conj D QbasisR) T (by omega) (by omega)
    (by rw [hqrL, hqrR]; exact hT)
  rw [hqrL, hqrR, reassembled_of_keep sdimL sdimR nL nR _ T hkeep] at hres
  have hrun := svdBondTruncate_ok svd denmatDecomp args indDL indDR qrLinkL qrLinkR sdimL sdimR
    QbasisL QbasisR D _ (by rw [hdimL, hdimR]; exact hres)
  refine ⟨_, _, hrun, rfl, rfl, ?_⟩
  intro i j hi hi' hj hj'
  show unrotateBond qrLinkL.dim qrLinkR.dim QbasisL.conj.conj
    (rotateBond nL nR QbasisL.conj D QbasisR) QbasisR.conj i j = D i j
  rw [hqrL, hqrR]
  have hentry := toMatrix_entry nL nR (unrotateBond nL nR QbasisL.conj.conj
    (rotateBond nL nR QbasisL.conj D QbasisR) QbasisR.conj) i j hi hi' hj hj'
  rw [hentry, unrotate_rotate nL nR QbasisL QbasisR D hUL hUR,
    ← toMatrix_entry nL nR D i j hi hi' hj hj']

theorem sampleQbasisL_unitary :
    toMatrix 2 2 sampleQbasisL ∈ Matrix.unitaryGroup (Fin 2) ℂ := by
  rw [Matrix.mem_unitaryGroup_iff]
  ext i j
  fin_cases i <;> fin_cases j <;>
    simp [toMatrix, sampleQbasisL, Matrix.mul_apply, Fin.sum_univ_two, Matrix.star_apply]

theorem sampleQbasisR_unitary :
    toMatrix 2 2 sampleQbasisR ∈ Matrix.unitaryGroup (Fin 2) ℂ := by
  rw [Matrix.mem_unitaryGroup_iff]
  ext i j
  fin_cases i <;> fin_cases j <;>
    simp [toMatrix, sampleQbasisR, Matrix.mul_apply, Fin.sum_univ_two, Matrix.star_apply]

theorem sample_rotated_entry :
    rotateBond ((2 : Nat) : Int) ((2 : Nat) : Int) sampleQbasisL.conj sampleBond sampleQbasisR 1 1
      = -Complex.I := by
  simp only [rotateBond, mulLastFirst, mulFirstFirst, sum_Icc_one, Fin.sum_univ_two]
  simp [Tensor2.conj, sampleQbasisL, sampleQbasisR, sampleBond]

theorem sampleArgsFull_truncate (S : Tensor2 ℂ) :
    truncateResidual (fun _ X => .ok X) (fun _ X => .ok X) sampleArgsFull 1 1 S = .ok S := by
  simp [truncateResidual, sampleArgsFull, liftLibrary]

/-- The round trip for the complex unitary `QbasisL = diag(i, 1)`, `QbasisR = 1` and the bond
matrix `[[1, 2], [3, 4]]`, with `sdimL = sdimR = 1` and factorisations that return their
argument. -/
theorem svdBond_preserved_roundtrip_witness :
    toMatrix 2 2 sampleQbasisL ∈ Matrix.unitaryGroup (Fin 2) ℂ ∧
    toMatrix 2 2 sampleQbasisR ∈ Matrix.unitaryGroup (Fin 2) ℂ ∧
    rotateBond ((2 : Nat) : Int) ((2 : Nat) : Int) sampleQbasisL.conj sampleBond sampleQbasisR 1 1
      ≠ 0 ∧
    ∃ tr newAA,
      svdBondTruncate (fun _ X => .ok X) (fun _ X => .ok X) sampleArgsFull sampleLink2 sampleLink2
        sampleLink2 sampleLink2 1 1 sampleQbasisL sampleQbasisR sampleBond = .ok (tr, newAA) ∧
      tr.subDTrunc = copyOut 1 1 ((2 : Nat) : Int) ((2 : Nat) : Int) (subtractConnected
        (rotateBond ((2 : Nat) : Int) ((2 : Nat) : Int) sampleQbasisL.conj sampleBond
          sampleQbasisR)) ∧
      tr.reassembled = rotateBond ((2 : Nat) : Int) ((2 : Nat) : Int) sampleQbasisL.conj
        sampleBond sampleQbasisR ∧
      ∀ i j : Int, 1 ≤ i → i ≤ ((2 : Nat) : Int) → 1 ≤ j → j ≤ ((2 : Nat) : Int) →
        newAA i j = sampleBond i j :=
  have h11 : rotateBond ((2 : Nat) : Int) ((2 : Nat) : Int) sampleQbasisL.conj sampleBond
      sampleQbasisR 1 1 ≠ 0 := by
    rw [sample_rotated_entry]
    simp
  ⟨sampleQbasisL_unitary, sampleQbasisR_unitary, h11,
    svdBond_preserved_roundtrip (fun _ X => .ok X) (fun _ X => .ok X) sampleArgsFull
      sampleLink2 sampleLink2 sampleLink2 sampleLink2 2 2 1 1 sampleQbasisL sampleQbasisR
      sampleBond _ rfl rfl rfl rfl sampleQbasisL_unitary sampleQbasisR_unitary h11
      (by decide) (by decide) (sampleArgsFull_truncate _) (fun _ _ _ _ _ _ => rfl)⟩

end DMT
